import Mathlib

/-!
Verification development for the auto-delete scheduling core of the
EliteProtection bot: a shallow embedding of
`bot/services/delete_worker.py` and `bot/services/auto_delete_engine.py`
with proofs about the scheduling engine, the delete executor and their
interaction.  Time is modelled by rationals (seconds); Python dicts are
modelled by association lists; the external chat platform is modelled by
an oracle assigning an outcome to each delete call.
-/

namespace EliteProtection

/-- A pending deletion target, mirroring `ScheduledDeleteEntry`
(`delete_worker.py`): composite key `(chat_id, message_id)`, a monotonic
due time and a retry attempt counter. -/
structure ScheduledDeleteEntry where
  chatId : ℤ
  messageId : ℤ
  dueAt : ℚ
  attempt : ℕ
deriving DecidableEq, Repr

/-- Mirrors `RetryDeleteEntry`: an entry paired with the delay before its
next attempt. -/
structure RetryDeleteEntry where
  entry : ScheduledDeleteEntry
  delaySeconds : ℚ
deriving DecidableEq, Repr

/-- Mirrors `DeleteExecutionResult`: the three outcome lists of one
processed batch. -/
structure DeleteExecutionResult where
  deleted : List ScheduledDeleteEntry := []
  failed : List ScheduledDeleteEntry := []
  retry : List RetryDeleteEntry := []
deriving DecidableEq, Repr

/-- The composite key of an entry. -/
abbrev DeleteKey := ℤ × ℤ

/-- Association-list lookup, the model of Python `dict[key]` access. -/
def alGet (k : DeleteKey) : List (DeleteKey × ScheduledDeleteEntry) → Option ScheduledDeleteEntry
  | [] => none
  | p :: rest => if p.1 = k then some p.2 else alGet k rest

/-- Association-list removal, the model of Python `dict.pop(key, None)`. -/
def alErase (k : DeleteKey) : List (DeleteKey × ScheduledDeleteEntry) →
    List (DeleteKey × ScheduledDeleteEntry)
  | [] => []
  | p :: rest => if p.1 = k then alErase k rest else p :: alErase k rest

/-- Association-list insertion, the model of Python `dict[key] = value`
(replacing any existing binding for the key). -/
def alInsert (k : DeleteKey) (e : ScheduledDeleteEntry)
    (l : List (DeleteKey × ScheduledDeleteEntry)) : List (DeleteKey × ScheduledDeleteEntry) :=
  (k, e) :: alErase k l

@[simp] theorem alGet_nil (k : DeleteKey) : alGet k [] = none := rfl

@[simp] theorem alGet_cons (k : DeleteKey) (p : DeleteKey × ScheduledDeleteEntry)
    (l : List (DeleteKey × ScheduledDeleteEntry)) :
    alGet k (p :: l) = if p.1 = k then some p.2 else alGet k l := rfl

@[simp] theorem alErase_nil (k : DeleteKey) : alErase k [] = [] := rfl

@[simp] theorem alErase_cons (k : DeleteKey) (p : DeleteKey × ScheduledDeleteEntry)
    (l : List (DeleteKey × ScheduledDeleteEntry)) :
    alErase k (p :: l) = if p.1 = k then alErase k l else p :: alErase k l := rfl

theorem alGet_erase_self (k : DeleteKey) (l : List (DeleteKey × ScheduledDeleteEntry)) :
    alGet k (alErase k l) = none := by
  induction l with
  | nil => rfl
  | cons p rest ih =>
      by_cases h : p.1 = k <;> simp [h, ih]

theorem alGet_erase_ne (k k' : DeleteKey) (l : List (DeleteKey × ScheduledDeleteEntry))
    (h : k ≠ k') : alGet k' (alErase k l) = alGet k' l := by
  induction l with
  | nil => rfl
  | cons p rest ih =>
      by_cases hp : p.1 = k
      · have hne : p.1 ≠ k' := by rw [hp]; exact h
        simp [hp, hne, ih, h]
      · by_cases hk' : p.1 = k' <;> simp [hp, hk', ih, h, Ne.symm h]

@[simp] theorem alGet_insert_self (k : DeleteKey) (e : ScheduledDeleteEntry)
    (l : List (DeleteKey × ScheduledDeleteEntry)) : alGet k (alInsert k e l) = some e := by
  simp [alInsert]

theorem alGet_insert_ne (k k' : DeleteKey) (e : ScheduledDeleteEntry)
    (l : List (DeleteKey × ScheduledDeleteEntry)) (h : k ≠ k') :
    alGet k' (alInsert k e l) = alGet k' l := by
  simp [alInsert, h, alGet_erase_ne k k' l h]

theorem alGet_isSome_of_mem (k : DeleteKey) (e : ScheduledDeleteEntry)
    (l : List (DeleteKey × ScheduledDeleteEntry)) (h : (k, e) ∈ l) :
    (alGet k l).isSome := by
  induction l with
  | nil => cases h
  | cons p rest ih =>
      rcases List.mem_cons.mp h with h | h
      · simp [← h]
      · by_cases hp : p.1 = k <;> simp [hp, ih h]

theorem mem_of_alGet_eq_some (k : DeleteKey) (e : ScheduledDeleteEntry)
    (l : List (DeleteKey × ScheduledDeleteEntry)) (h : alGet k l = some e) :
    (k, e) ∈ l := by
  induction l with
  | nil => cases h
  | cons p rest ih =>
      by_cases hp : p.1 = k
      · simp [hp] at h
        have hpe : p = (k, e) := by
          have h1 : p.1 = k := hp
          have h2 : p.2 = e := h
          calc p = (p.1, p.2) := rfl
            _ = (k, e) := by rw [h1, h2]
        rw [hpe]
        exact List.mem_cons_self _ _
      · simp [hp] at h
        exact List.mem_cons_of_mem _ (ih h)

theorem alErase_sublist (k : DeleteKey) (l : List (DeleteKey × ScheduledDeleteEntry)) :
    List.Sublist (alErase k l) l := by
  induction l with
  | nil => exact List.Sublist.refl []
  | cons p rest ih =>
      by_cases h : p.1 = k
      · simpa [h] using ih.cons p
      · simpa [h] using ih.cons₂ p

theorem keys_nodup_erase (k : DeleteKey) (l : List (DeleteKey × ScheduledDeleteEntry))
    (h : (l.map Prod.fst).Nodup) : ((alErase k l).map Prod.fst).Nodup :=
  ((alErase_sublist k l).map Prod.fst).nodup h

theorem not_mem_alErase_self (k : DeleteKey) (e : ScheduledDeleteEntry)
    (l : List (DeleteKey × ScheduledDeleteEntry)) : (k, e) ∉ alErase k l := by
  intro hmem
  have := alGet_isSome_of_mem k e _ hmem
  rw [alGet_erase_self] at this
  cases this

theorem keys_nodup_insert (k : DeleteKey) (e : ScheduledDeleteEntry)
    (l : List (DeleteKey × ScheduledDeleteEntry)) (h : (l.map Prod.fst).Nodup) :
    ((alInsert k e l).map Prod.fst).Nodup := by
  refine List.Nodup.cons ?_ (keys_nodup_erase k l h)
  intro hmem
  rcases List.mem_map.mp hmem with ⟨p, hp, hfst⟩
  have hps : p = (p.1, p.2) := rfl
  rw [hps, hfst] at hp
  have := alGet_isSome_of_mem k p.2 _ hp
  rw [alGet_erase_self] at this
  cases this

/-- Model of Python `max` on two rationals, written with `if` so that it
evaluates by kernel reduction; equal to `max` by `pyMax_eq_max`. -/
def pyMax (a b : ℚ) : ℚ := if a ≤ b then b else a

/-- Model of Python `min` on two rationals; equal to `min` by
`pyMin_eq_min`. -/
def pyMin (a b : ℚ) : ℚ := if a ≤ b then a else b

theorem pyMax_eq_max (a b : ℚ) : pyMax a b = max a b := (max_def a b).symm

theorem pyMin_eq_min (a b : ℚ) : pyMin a b = min a b := (min_def a b).symm

/-- The state of a `DeleteWorker` (`delete_worker.py`): the validated,
100-capped batch size, the retry-delay bounds and the lazily discovered
batch-deletion capability flag (`None` until discovered). -/
structure DeleteWorkerState where
  maxBatchSize : ℕ
  maxRetryDelaySeconds : ℚ
  baseRetryDelaySeconds : ℚ
  batchDeleteSupported : Option Bool
deriving Repr

/-- Mirrors `DeleteWorker.__init__`: rejects `max_batch_size < 1`, then caps
the stored batch size at 100.  The retry-delay parameters are stored
unvalidated, exactly as in the source. -/
def mkDeleteWorker (maxBatchSize : ℤ) (maxRetryDelaySeconds baseRetryDelaySeconds : ℚ) :
    Except String DeleteWorkerState :=
  if maxBatchSize < 1 then
    Except.error "max_batch_size must be >= 1"
  else
    Except.ok
      { maxBatchSize := (min maxBatchSize 100).toNat
        maxRetryDelaySeconds := maxRetryDelaySeconds
        baseRetryDelaySeconds := baseRetryDelaySeconds
        batchDeleteSupported := none }

/-- Mirrors `DeleteWorker._chunk_entries`: slice the input into chunks of at
most `size` entries.  (`size = 0` cannot arise from `mkDeleteWorker`; the
source would raise on a zero `range` step.) -/
def chunkEntries (size : ℕ) (l : List ScheduledDeleteEntry) :
    List (List ScheduledDeleteEntry) :=
  if h : l = [] ∨ size = 0 then []
  else
    l.take size :: chunkEntries size (l.drop size)
termination_by l.length
decreasing_by
  push_neg at h
  have hlen : 0 < l.length := List.length_pos.mpr h.1
  have hsize : 0 < size := Nat.pos_of_ne_zero h.2
  simpa using Nat.sub_lt hlen hsize

/-- Abstraction of an `aiogram` `TelegramAPIError` as observed by the worker:
the exception class name, the error text, the optional numeric
`retry_after` attribute, and the wait (whole seconds) matched by the
`RETRY_AFTER_PATTERN` regex in the error text, if any.  The `isRetryAfter`
field records `isinstance(exc, TelegramRetryAfter)`; at both call sites of
`_is_temporary_api_error` a `TelegramRetryAfter` has already been caught by
an earlier `except` clause, so it is `false` on every reachable input. -/
structure ApiErrorModel where
  className : String
  text : String
  retryAfterAttr : Option ℚ
  advertisedWaitInText : Option ℕ
  isRetryAfter : Bool
deriving Repr

/-- Outcome of one `bot.delete_messages(chat_id, message_ids)` call, one
constructor per `except` clause of `_delete_chunk`. -/
inductive BatchCallOutcome where
  | success
  | attrOrTypeError
  | badRequest (text : String)
  | forbidden (text : String)
  | retryAfterExc (retryAfterSecs : ℚ)
  | apiError (err : ApiErrorModel)
  | unexpected
deriving Repr

/-- Outcome of one `bot.delete_message(chat_id, message_id)` call, one
constructor per `except` clause of `_delete_chunk_sequential`. -/
inductive SingleCallOutcome where
  | success
  | badRequest (text : String)
  | forbidden (text : String)
  | retryAfterExc (retryAfterSecs : ℚ)
  | apiError (err : ApiErrorModel)
  | unexpected
deriving Repr

/-- The external chat platform, modelled as an oracle: whether the bot
object exposes a callable `delete_messages`, and the outcome of each batch
and single delete call. -/
structure BotModel where
  hasDeleteMessages : Bool
  batchCall : ℤ → List ℤ → BatchCallOutcome
  singleCall : ℤ → ℤ → SingleCallOutcome

/-- Substring test on character lists, the model of Python's `in` operator
on strings. -/
def hasSub (pat : List Char) : List Char → Bool
  | [] => pat.isEmpty
  | c :: rest => pat.isPrefixOf (c :: rest) || hasSub pat rest

/-- Model of Python `str.lower()` on the character list of a string. -/
def lowerChars (s : String) : List Char :=
  s.toList.map Char.toLower

/-- Mirrors `DeleteWorker._is_already_deleted_or_not_deletable`, applied to
the already-lowercased error text.  (The third pattern spells the
apostrophe of "can't" via its character code.) -/
def isAlreadyDeletedOrNotDeletable (errorText : List Char) : Bool :=
  hasSub "message to delete not found".toList errorText
    || hasSub ("message can".toList ++ [Char.ofNat 39] ++ "t be deleted".toList) errorText
    || hasSub "message can not be deleted".toList errorText
    || hasSub "message identifier is not specified".toList errorText

/-- Mirrors `DeleteWorker._is_temporary_api_error`. -/
def isTemporaryApiError (exc : ApiErrorModel) : Bool :=
  exc.isRetryAfter
    || (let cn := lowerChars exc.className
        hasSub "network".toList cn || hasSub "timeout".toList cn || hasSub "server".toList cn)
    || (let t := lowerChars exc.text
        hasSub "timeout".toList t
          || hasSub "timed out".toList t
          || hasSub "temporarily unavailable".toList t
          || hasSub "internal server error".toList t
          || hasSub "bad gateway".toList t
          || hasSub "retry after".toList t
          || hasSub "too many requests".toList t
          || hasSub "flood".toList t)

/-- Mirrors `DeleteWorker._bounded_retry_delay`:
`max(0.5, min(value, self._max_retry_delay_seconds))`. -/
def boundedRetryDelay (w : DeleteWorkerState) (value : ℚ) : ℚ :=
  pyMax (1 / 2) (pyMin value w.maxRetryDelaySeconds)

/-- Mirrors `DeleteWorker._compute_backoff`: exponential backoff
`base * 2 ** attempt`, lower-bounded by the suggested delay when present,
then clamped by `_bounded_retry_delay`. -/
def computeBackoff (w : DeleteWorkerState) (entry : ScheduledDeleteEntry)
    (suggestedDelay : Option ℚ) : ℚ :=
  let exponentialDelay := w.baseRetryDelaySeconds * 2 ^ entry.attempt
  let exponentialDelay :=
    match suggestedDelay with
    | some d => pyMax exponentialDelay d
    | none => exponentialDelay
  boundedRetryDelay w exponentialDelay

/-- Model of `float(exc.retry_after or 1.0)`: a zero (falsy) value is
replaced by `1.0`. -/
def retryAfterOrOne (retryAfterSecs : ℚ) : ℚ :=
  if retryAfterSecs = 0 then 1 else retryAfterSecs

/-- Mirrors `DeleteWorker._retry_delay_from_error`: a positive numeric
`retry_after` attribute wins, otherwise the wait parsed from the error
text by `RETRY_AFTER_PATTERN`; either is clamped by
`_bounded_retry_delay`; `none` when neither is available. -/
def retryDelayFromError (w : DeleteWorkerState) (exc : ApiErrorModel) : Option ℚ :=
  match exc.retryAfterAttr with
  | some r =>
      if 0 < r then some (boundedRetryDelay w r)
      else exc.advertisedWaitInText.map (fun n => boundedRetryDelay w (n : ℚ))
  | none => exc.advertisedWaitInText.map (fun n => boundedRetryDelay w (n : ℚ))

/-- Mirrors `DeleteWorker._delete_chunk_sequential`: one delete call per
entry, classifying each outcome into exactly one of the three result
lists; bad requests whose text matches
`_is_already_deleted_or_not_deletable` count as success. -/
def deleteChunkSequential (w : DeleteWorkerState) (bot : BotModel) (chatId : ℤ) :
    List ScheduledDeleteEntry → DeleteExecutionResult
  | [] => {}
  | entry :: rest =>
      let r := deleteChunkSequential w bot chatId rest
      match bot.singleCall chatId entry.messageId with
      | .success => { r with deleted := entry :: r.deleted }
      | .badRequest text =>
          if isAlreadyDeletedOrNotDeletable (lowerChars text) then
            { r with deleted := entry :: r.deleted }
          else
            { r with failed := entry :: r.failed }
      | .forbidden _ => { r with failed := entry :: r.failed }
      | .retryAfterExc secs =>
          let retryDelay := computeBackoff w entry (some (retryAfterOrOne secs))
          { r with retry := ⟨entry, retryDelay⟩ :: r.retry }
      | .apiError exc =>
          if ¬ isTemporaryApiError exc then
            { r with failed := entry :: r.failed }
          else
            let retryDelay := computeBackoff w entry (retryDelayFromError w exc)
            { r with retry := ⟨entry, retryDelay⟩ :: r.retry }
      | .unexpected =>
          { r with retry := ⟨entry, computeBackoff w entry none⟩ :: r.retry }

/-- Mirrors `DeleteWorker._delete_chunk`: one batch call when batch deletion
is believed available, with fallback to the sequential path and the sticky
capability flag; returns the updated flag together with the result. -/
def deleteChunk (w : DeleteWorkerState) (flag : Option Bool) (bot : BotModel) (chatId : ℤ)
    (entries : List ScheduledDeleteEntry) : Option Bool × DeleteExecutionResult :=
  if flag = some false then
    (flag, deleteChunkSequential w bot chatId entries)
  else if ¬ bot.hasDeleteMessages then
    (some false, deleteChunkSequential w bot chatId entries)
  else
    match bot.batchCall chatId (entries.map ScheduledDeleteEntry.messageId) with
    | .success => (some true, { deleted := entries })
    | .attrOrTypeError => (some false, deleteChunkSequential w bot chatId entries)
    | .badRequest _ => (flag, deleteChunkSequential w bot chatId entries)
    | .forbidden _ => (flag, { failed := entries })
    | .retryAfterExc secs =>
        let retryDelay := boundedRetryDelay w (retryAfterOrOne secs)
        (flag, { retry := entries.map (fun e => ⟨e, computeBackoff w e (some retryDelay)⟩) })
    | .apiError exc =>
        if ¬ isTemporaryApiError exc then
          (flag, { failed := entries })
        else
          let retryDelay := retryDelayFromError w exc
          (flag, { retry := entries.map (fun e => ⟨e, computeBackoff w e retryDelay⟩) })
    | .unexpected =>
        (flag, { retry := entries.map (fun e => ⟨e, computeBackoff w e none⟩) })

/-- Concatenation of execution results, the model of the three `extend`
calls in `delete_due_messages`. -/
def resultAppend (a b : DeleteExecutionResult) : DeleteExecutionResult :=
  { deleted := a.deleted ++ b.deleted
    failed := a.failed ++ b.failed
    retry := a.retry ++ b.retry }

/-- The chunk loop of `delete_due_messages`, threading the sticky
capability flag through the chunks. -/
def runChunks (w : DeleteWorkerState) (flag : Option Bool) (bot : BotModel) (chatId : ℤ) :
    List (List ScheduledDeleteEntry) → Option Bool × DeleteExecutionResult
  | [] => (flag, {})
  | chunk :: rest =>
      let (flag1, r1) := deleteChunk w flag bot chatId chunk
      let (flag2, r2) := runChunks w flag1 bot chatId rest
      (flag2, resultAppend r1 r2)

/-- Mirrors `DeleteWorker.delete_due_messages`: empty input yields an empty
result; otherwise the input is chunked and each chunk processed in order. -/
def deleteDueMessages (w : DeleteWorkerState) (flag : Option Bool) (bot : BotModel)
    (chatId : ℤ) (entries : List ScheduledDeleteEntry) :
    Option Bool × DeleteExecutionResult :=
  if entries = [] then (flag, {})
  else runChunks w flag bot chatId (chunkEntries w.maxBatchSize entries)

/-- Mirrors `AutoDeleteMetrics` (`auto_delete_engine.py`). -/
structure AutoDeleteMetrics where
  scheduledCount : ℕ := 0
  botContentScheduled : ℕ := 0
  stickerScheduled : ℕ := 0
  deletedCount : ℕ := 0
  failedCount : ℕ := 0
  duplicateCount : ℕ := 0
  restoredCount : ℕ := 0
  driftSumSeconds : ℚ := 0
  driftSamples : ℕ := 0
deriving DecidableEq, Repr

/-- Mirrors `PendingDeleteMutation`: an upsert or delete record queued for
the persistence side-channel. -/
structure PendingDeleteMutation where
  op : String
  chatId : ℤ
  messageId : ℤ
  dueAtUtc : Option ℚ := none
  attempt : ℕ := 0
deriving DecidableEq, Repr

/-- The constructor arguments of `AutoDeleteEngine.__init__`, with the
source's default values. -/
structure EngineParams where
  deleteDelaySeconds : ℤ := 45
  tickIntervalSeconds : ℚ := 1 / 4
  maxBatchSize : ℤ := 100
  maxRetryAttempts : ℤ := 5
  retryBaseDelaySeconds : ℚ := 3 / 2
  retryMaxDelaySeconds : ℚ := 45
  workerConcurrency : ℤ := 6
  metricsLogIntervalSeconds : ℤ := 60
  persistenceEnabled : Bool := false
  persistenceTtlHours : ℤ := 24
  restoreLimit : ℤ := 20000

/-- Model of Python `int(x)` on a rational: truncation toward zero. -/
def pyInt (q : ℚ) : ℤ :=
  if 0 ≤ q then ⌊q⌋ else -⌊-q⌋

/-- The mutable state of an `AutoDeleteEngine`.  The wheel `slots` are a
total function from slot index to the slot's dict (association list);
only indices below `bucketCount` are ever populated.  Background tasks,
the bot handle and the persistence indexes are not modelled. -/
structure EngineState where
  deleteDelaySeconds : ℤ
  tickIntervalSeconds : ℚ
  maxRetryAttempts : ℕ
  metricsLogIntervalSeconds : ℤ
  bucketCount : ℕ
  deleteWorker : DeleteWorkerState
  slots : ℕ → List (DeleteKey × ScheduledDeleteEntry)
  entries : List (DeleteKey × ScheduledDeleteEntry)
  metrics : AutoDeleteMetrics
  started : Bool
  shuttingDown : Bool
  currentSlot : ℕ
  persistenceEnabled : Bool
  persistenceTtlHours : ℤ
  restoreLimit : ℤ
  persistenceQueue : List PendingDeleteMutation
  persistenceDropCount : ℕ

/-- Mirrors `AutoDeleteEngine.__init__`: the four validations, the
construction of the embedded `DeleteWorker` (which validates
`max_batch_size`), the bucket-count sizing
`max(512, ceil((delete_delay + retry_max + 10) / tick) + 1)`, and the
initial empty state. -/
def mkAutoDeleteEngine (p : EngineParams) : Except String EngineState :=
  if p.deleteDelaySeconds < 1 then
    Except.error "delete_delay_seconds must be >= 1"
  else if p.tickIntervalSeconds ≤ 0 then
    Except.error "tick_interval_seconds must be > 0"
  else if p.maxRetryAttempts < 0 then
    Except.error "max_retry_attempts must be >= 0"
  else if p.workerConcurrency < 1 then
    Except.error "worker_concurrency must be >= 1"
  else
  match mkDeleteWorker p.maxBatchSize p.retryMaxDelaySeconds p.retryBaseDelaySeconds with
  | Except.error e => Except.error e
  | Except.ok worker =>
  let bufferWindowSeconds : ℚ := (p.deleteDelaySeconds : ℚ) + p.retryMaxDelaySeconds + 10
  let bucketCount : ℕ := max 512 (⌈bufferWindowSeconds / p.tickIntervalSeconds⌉ + 1).toNat
  Except.ok
    { deleteDelaySeconds := p.deleteDelaySeconds
      tickIntervalSeconds := p.tickIntervalSeconds
      maxRetryAttempts := p.maxRetryAttempts.toNat
      metricsLogIntervalSeconds := p.metricsLogIntervalSeconds
      bucketCount := bucketCount
      deleteWorker := worker
      slots := fun _ => []
      entries := []
      metrics := {}
      started := false
      shuttingDown := false
      currentSlot := 0
      persistenceEnabled := p.persistenceEnabled
      persistenceTtlHours := p.persistenceTtlHours
      restoreLimit := p.restoreLimit
      persistenceQueue := []
      persistenceDropCount := 0 }

/-- Mirrors `AutoDeleteEngine._slot_for_due`:
`int(due_at / tick_interval) % bucket_count`. -/
def slotForDue (s : EngineState) (dueAt : ℚ) : ℕ :=
  (pyInt (dueAt / s.tickIntervalSeconds) % (s.bucketCount : ℤ)).toNat

/-- Mirrors `AutoDeleteEngine._enqueue_persistence_mutation`: append to the
bounded queue (capacity 200000), counting drops when full. -/
def enqueuePersistenceMutation (s : EngineState) (m : PendingDeleteMutation) : EngineState :=
  if s.persistenceQueue.length < 200000 then
    { s with persistenceQueue := s.persistenceQueue ++ [m] }
  else
    { s with persistenceDropCount := s.persistenceDropCount + 1 }

/-- Mirrors `AutoDeleteEngine._schedule_entry`.  `now` is the monotonic
clock, `nowUtc` the wall clock used for the persistence record.  A key
already present in the index is rejected, counting only a duplicate. -/
def scheduleEntry (s : EngineState) (chatId messageId : ℤ) (delaySeconds : ℚ) (attempt : ℕ)
    (persist restored : Bool) (scheduleKind : Option String) (now nowUtc : ℚ) :
    Bool × EngineState :=
  let key : DeleteKey := (chatId, messageId)
  let dueAt := now + delaySeconds
  let entry : ScheduledDeleteEntry := ⟨chatId, messageId, dueAt, attempt⟩
  if (alGet key s.entries).isSome then
    (false, { s with metrics := { s.metrics with duplicateCount := s.metrics.duplicateCount + 1 } })
  else
    let slotIndex := slotForDue s dueAt
    let metrics1 :=
      { s.metrics with
        scheduledCount := s.metrics.scheduledCount + 1
        botContentScheduled :=
          if scheduleKind = some "bot_content" then s.metrics.botContentScheduled + 1
          else s.metrics.botContentScheduled
        stickerScheduled :=
          if scheduleKind = some "bot_content" then s.metrics.stickerScheduled
          else if scheduleKind = some "sticker" then s.metrics.stickerScheduled + 1
          else s.metrics.stickerScheduled
        restoredCount :=
          if restored then s.metrics.restoredCount + 1 else s.metrics.restoredCount }
    let s1 :=
      { s with
        slots := fun j => if j = slotIndex then alInsert key entry (s.slots j) else s.slots j
        entries := alInsert key entry s.entries
        metrics := metrics1 }
    let s2 :=
      if s.persistenceEnabled && persist then
        enqueuePersistenceMutation s1
          { op := "upsert"
            chatId := chatId
            messageId := messageId
            dueAtUtc := some (nowUtc + delaySeconds)
            attempt := attempt }
      else s1
    (true, s2)

/-- One document of the `pending_deletes` collection as read back by
`_restore_pending_deletes`; `none` fields model values failing the
`isinstance` checks. -/
structure RestoredDocument where
  chatId : Option ℤ
  messageId : Option ℤ
  dueAtUtc : Option ℚ
  attempt : Option ℤ

/-- Mirrors the per-document body of `_restore_pending_deletes`: skip
documents without integer ids, default a missing due time to `now_utc` and
a missing or negative attempt to 0, then schedule with
`delay = max(0, due_at - now_utc)`, unpersisted and counted as restored. -/
def restoreDocument (s : EngineState) (doc : RestoredDocument) (now nowUtc : ℚ) : EngineState :=
  match doc.chatId, doc.messageId with
  | some chatId, some messageId =>
      let dueAt := doc.dueAtUtc.getD nowUtc
      let attempt : ℕ :=
        match doc.attempt with
        | some a => if a < 0 then 0 else a.toNat
        | none => 0
      let delaySeconds := pyMax 0 (dueAt - nowUtc)
      (scheduleEntry s chatId messageId delaySeconds attempt false true none now nowUtc).2
  | _, _ => s

/-- Mirrors `AutoDeleteEngine._restore_pending_deletes`: nothing when the
restore cap is non-positive, otherwise the first `restore_limit` documents
(the store is queried in due-time order with that limit) are re-inserted
one by one. -/
def restorePendingDeletes (s : EngineState) (docs : List RestoredDocument) (now nowUtc : ℚ) :
    EngineState :=
  if s.restoreLimit ≤ 0 then s
  else (docs.take s.restoreLimit.toNat).foldl (fun st doc => restoreDocument st doc now nowUtc) s

/-- Mirrors `AutoDeleteEngine.start`: idempotent; otherwise clear the
shutdown flag, anchor the current slot at `now`, restore persisted entries
when persistence is enabled, and mark the engine started.  (Handle
rebinding and task creation are not modelled.) -/
def startEngine (s : EngineState) (docs : List RestoredDocument) (now nowUtc : ℚ) :
    EngineState :=
  if s.started then s
  else
    let s1 := { s with shuttingDown := false, currentSlot := slotForDue s now }
    let s2 := if s1.persistenceEnabled then restorePendingDeletes s1 docs now nowUtc else s1
    { s2 with started := true }

/-- Mirrors `AutoDeleteEngine.schedule_message_delete`: reject during
shutdown, auto-start when not yet started (`docs` being the persisted
documents a start would restore), clamp an explicit delay at 0, default a
missing delay to the configured delete delay, then insert via
`_schedule_entry` with attempt 0. -/
def scheduleMessageDelete (s : EngineState) (chatId messageId : ℤ)
    (delaySeconds : Option ℚ) (scheduleKind : String) (docs : List RestoredDocument)
    (now nowUtc : ℚ) : Bool × EngineState :=
  if s.shuttingDown then (false, s)
  else
    let s1 := if s.started then s else startEngine s docs now nowUtc
    let requestedDelay :=
      match delaySeconds with
      | none => (s.deleteDelaySeconds : ℚ)
      | some d => pyMax 0 d
    scheduleEntry s1 chatId messageId requestedDelay 0 true false (some scheduleKind) now nowUtc

/-- The loop body of `_collect_due_entries` over the swapped-out slot
contents: a due entry (due no later than `cutoff`) is collected, a stale
one is reinserted into the slot recomputed from its due time.  Collected
entries are returned in iteration order. -/
def collectLoop (s : EngineState) (cutoff : ℚ) :
    List (DeleteKey × ScheduledDeleteEntry) → (ℕ → List (DeleteKey × ScheduledDeleteEntry)) →
    List ScheduledDeleteEntry × (ℕ → List (DeleteKey × ScheduledDeleteEntry))
  | [], slots => ([], slots)
  | (key, entry) :: rest, slots =>
      if entry.dueAt ≤ cutoff then
        let (due, slots1) := collectLoop s cutoff rest slots
        (entry :: due, slots1)
      else
        let futureSlot := slotForDue s entry.dueAt
        collectLoop s cutoff rest
          (fun j => if j = futureSlot then alInsert key entry (slots j) else slots j)

/-- Mirrors `AutoDeleteEngine._collect_due_entries`: swap out the current
slot, advance the slot pointer circularly, then split the slot's entries
against the cutoff `now + tick/2`.  The source groups the collected
entries by chat id for dispatch; the grouping does not alter which
entries are collected, so the collected list is returned ungrouped. -/
def collectDueEntries (s : EngineState) (now : ℚ) :
    List ScheduledDeleteEntry × EngineState :=
  let slotEntries := s.slots s.currentSlot
  let slots0 := fun j => if j = s.currentSlot then [] else s.slots j
  let cutoff := now + s.tickIntervalSeconds / 2
  let (due, slots1) := collectLoop s cutoff slotEntries slots0
  (due, { s with slots := slots1, currentSlot := (s.currentSlot + 1) % s.bucketCount })

/-- Accumulator of `_apply_delete_result`: the evolving state together
with the keys to delete from and the records to upsert into the
persistence store after the lock is released. -/
structure ApplyAccum where
  state : EngineState
  deleteOps : List DeleteKey
  upsertOps : List (ℤ × ℤ × ℚ × ℕ)

/-- The `result.deleted` loop body of `_apply_delete_result`: drop the key
from the index, count the deletion, record the drift `max(0, now - due)`. -/
def applyDeletedStep (now : ℚ) (acc : ApplyAccum) (entry : ScheduledDeleteEntry) : ApplyAccum :=
  let key : DeleteKey := (entry.chatId, entry.messageId)
  let s := acc.state
  { acc with
    state :=
      { s with
        entries := alErase key s.entries
        metrics :=
          { s.metrics with
            deletedCount := s.metrics.deletedCount + 1
            driftSumSeconds := s.metrics.driftSumSeconds + pyMax 0 (now - entry.dueAt)
            driftSamples := s.metrics.driftSamples + 1 } }
    deleteOps := acc.deleteOps ++ [key] }

/-- The `result.failed` loop body of `_apply_delete_result`: drop the key
from the index and count the terminal failure. -/
def applyFailedStep (acc : ApplyAccum) (entry : ScheduledDeleteEntry) : ApplyAccum :=
  let key : DeleteKey := (entry.chatId, entry.messageId)
  let s := acc.state
  { acc with
    state :=
      { s with
        entries := alErase key s.entries
        metrics := { s.metrics with failedCount := s.metrics.failedCount + 1 } }
    deleteOps := acc.deleteOps ++ [key] }

/-- The `result.retry` loop body of `_apply_delete_result`: a directive
whose key is no longer in the index is discarded; an exhausted directive
(incremented attempt above `max_retry_attempts`) drops the entry as
failed; otherwise the entry is reinserted due at `now + delay` with the
incremented attempt, and an upsert is recorded. -/
def applyRetryStep (maxRetryAttempts : ℕ) (now nowUtc : ℚ) (acc : ApplyAccum)
    (retryItem : RetryDeleteEntry) : ApplyAccum :=
  let entry := retryItem.entry
  let key : DeleteKey := (entry.chatId, entry.messageId)
  let s := acc.state
  if (alGet key s.entries).isSome = false then acc
  else
    let nextAttempt := entry.attempt + 1
    if maxRetryAttempts < nextAttempt then
      { acc with
        state :=
          { s with
            entries := alErase key s.entries
            metrics := { s.metrics with failedCount := s.metrics.failedCount + 1 } }
        deleteOps := acc.deleteOps ++ [key] }
    else
      let retryDueAt := now + retryItem.delaySeconds
      let retryEntry : ScheduledDeleteEntry :=
        ⟨entry.chatId, entry.messageId, retryDueAt, nextAttempt⟩
      let retrySlot := slotForDue s retryDueAt
      { acc with
        state :=
          { s with
            entries := alInsert key retryEntry s.entries
            slots := fun j =>
              if j = retrySlot then alInsert key retryEntry (s.slots j) else s.slots j }
        upsertOps :=
          acc.upsertOps ++ [(entry.chatId, entry.messageId, nowUtc + retryItem.delaySeconds,
            nextAttempt)] }

/-- Mirrors `AutoDeleteEngine._apply_delete_result`: the three loops under
the lock, then (persistence enabled) one queued delete per resolved key
and one queued upsert per rescheduled retry.  The source re-reads the
monotonic clock once per retry item; the single `now` parameter stands for
those readings, which the claims never need to distinguish. -/
def applyDeleteResult (s : EngineState) (result : DeleteExecutionResult) (now nowUtc : ℚ) :
    EngineState :=
  let acc0 : ApplyAccum := ⟨s, [], []⟩
  let acc1 := result.deleted.foldl (applyDeletedStep now) acc0
  let acc2 := result.failed.foldl applyFailedStep acc1
  let acc3 := result.retry.foldl (applyRetryStep s.maxRetryAttempts now nowUtc) acc2
  if acc3.state.persistenceEnabled then
    let s1 := acc3.deleteOps.foldl
      (fun st key => enqueuePersistenceMutation st
        { op := "delete", chatId := key.1, messageId := key.2 }) acc3.state
    acc3.upsertOps.foldl
      (fun st op => enqueuePersistenceMutation st
        { op := "upsert", chatId := op.1, messageId := op.2.1, dueAtUtc := some op.2.2.1,
          attempt := op.2.2.2 }) s1
  else acc3.state

/-- Mirrors `AutoDeleteEngine.shutdown`: raise the shutdown flag, cancel
the loops (not modelled), drain the persistence queue (the source drains
only when a persistence task exists; the queue is non-empty only then, so
clearing unconditionally coincides), clear the index and every wheel
slot, and mark the engine stopped. -/
def shutdownEngine (s : EngineState) : EngineState :=
  { s with
    shuttingDown := true
    persistenceQueue := []
    entries := []
    slots := fun _ => []
    started := false }

/-- Runs `_collect_due_entries` once per given tick time, returning the
list of collected batches in tick order; the model of the tick loop's
repeated due-entry collection. -/
def runTicks (s : EngineState) : List ℚ → List (List ScheduledDeleteEntry) × EngineState
  | [] => ([], s)
  | now :: rest =>
      let (due, s1) := collectDueEntries s now
      let (batches, s2) := runTicks s1 rest
      (due :: batches, s2)

/-! ### Characterisation of the collect loop -/

theorem collectLoop_fst (s : EngineState) (cutoff : ℚ)
    (l : List (DeleteKey × ScheduledDeleteEntry))
    (slots : ℕ → List (DeleteKey × ScheduledDeleteEntry)) :
    (collectLoop s cutoff l slots).1 =
      (l.filter (fun p => p.2.dueAt ≤ cutoff)).map Prod.snd := by
  induction l generalizing slots with
  | nil => rfl
  | cons p rest ih =>
      by_cases h : p.2.dueAt ≤ cutoff <;> simp [collectLoop, h, ih]

theorem collectLoop_dispatch_le (s : EngineState) (cutoff : ℚ)
    (l : List (DeleteKey × ScheduledDeleteEntry))
    (slots : ℕ → List (DeleteKey × ScheduledDeleteEntry)) (e : ScheduledDeleteEntry)
    (h : e ∈ (collectLoop s cutoff l slots).1) : e.dueAt ≤ cutoff := by
  rw [collectLoop_fst] at h
  rcases List.mem_map.mp h with ⟨p, hp, hpe⟩
  have := List.of_mem_filter hp
  simpa [hpe] using this

theorem collectLoop_slots_other (s : EngineState) (cutoff : ℚ) (k : DeleteKey)
    (l : List (DeleteKey × ScheduledDeleteEntry))
    (slots : ℕ → List (DeleteKey × ScheduledDeleteEntry))
    (h : k ∉ l.map Prod.fst) (j : ℕ) :
    alGet k ((collectLoop s cutoff l slots).2 j) = alGet k (slots j) := by
  induction l generalizing slots with
  | nil => rfl
  | cons p rest ih =>
      have hk : p.1 ≠ k := by
        intro he
        exact h (by simp [← he])
      have hrest : k ∉ rest.map Prod.fst := fun hm => h (List.mem_cons_of_mem _ hm)
      rcases p with ⟨k0, e0⟩
      by_cases hdue : e0.dueAt ≤ cutoff
      · simp [collectLoop, hdue, ih _ hrest]
      · rw [collectLoop, if_neg hdue, ih _ hrest]
        by_cases hj : j = slotForDue s e0.dueAt
        · simp [hj, alGet_insert_ne _ _ _ _ hk]
        · simp [hj]

theorem collectLoop_slots_stale (s : EngineState) (cutoff : ℚ) (k : DeleteKey)
    (e : ScheduledDeleteEntry) (l : List (DeleteKey × ScheduledDeleteEntry))
    (slots : ℕ → List (DeleteKey × ScheduledDeleteEntry))
    (hnodup : (l.map Prod.fst).Nodup) (hmem : (k, e) ∈ l) (hdue : ¬ e.dueAt ≤ cutoff) :
    alGet k ((collectLoop s cutoff l slots).2 (slotForDue s e.dueAt)) = some e := by
  induction l generalizing slots with
  | nil => cases hmem
  | cons p rest ih =>
      rcases p with ⟨k0, e0⟩
      rcases List.mem_cons.mp hmem with hh | hh
      · have hk : k0 = k := congrArg Prod.fst hh.symm
        have he : e0 = e := congrArg Prod.snd hh.symm
        subst hk
        subst he
        rw [collectLoop, if_neg hdue]
        have hnot : k0 ∉ rest.map Prod.fst := by
          simpa using (List.nodup_cons.mp hnodup).1
        rw [collectLoop_slots_other s cutoff k0 rest _ hnot]
        simp
      · have hk : k0 ≠ k := by
          intro he
          have : k0 ∈ rest.map Prod.fst := by
            rw [he]
            exact List.mem_map.mpr ⟨(k, e), hh, rfl⟩
          exact (List.nodup_cons.mp hnodup).1 this
        have hrest : (rest.map Prod.fst).Nodup := (List.nodup_cons.mp hnodup).2
        by_cases hdue0 : e0.dueAt ≤ cutoff
        · simp [collectLoop, hdue0, ih _ hrest hh]
        · rw [collectLoop, if_neg hdue0]
          exact ih _ hrest hh

theorem collectLoop_slots_none (s : EngineState) (cutoff : ℚ) (k : DeleteKey)
    (l : List (DeleteKey × ScheduledDeleteEntry))
    (slots : ℕ → List (DeleteKey × ScheduledDeleteEntry))
    (hnone : ∀ j, alGet k (slots j) = none)
    (hdue : ∀ e, (k, e) ∈ l → e.dueAt ≤ cutoff) (j : ℕ) :
    alGet k ((collectLoop s cutoff l slots).2 j) = none := by
  induction l generalizing slots with
  | nil => exact hnone j
  | cons p rest ih =>
      rcases p with ⟨k0, e0⟩
      have hdue' : ∀ e, (k, e) ∈ rest → e.dueAt ≤ cutoff := fun e he =>
        hdue e (List.mem_cons_of_mem _ he)
      by_cases hdue0 : e0.dueAt ≤ cutoff
      · simp [collectLoop, hdue0]
        exact ih _ hnone hdue'
      · have hk : k0 ≠ k := by
          intro he
          exact hdue0 (hdue e0 (by rw [← he]; exact List.mem_cons_self _ _))
        rw [collectLoop, if_neg hdue0]
        refine ih _ ?_ hdue'
        intro j'
        by_cases hj : j' = slotForDue s e0.dueAt
        · simp [hj, alGet_insert_ne _ _ _ _ hk, hnone]
        · simp [hj, hnone]

/-- `entries` of a state never change under `enqueuePersistenceMutation`. -/
theorem enqueue_entries (s : EngineState) (m : PendingDeleteMutation) :
    (enqueuePersistenceMutation s m).entries = s.entries := by
  unfold enqueuePersistenceMutation
  by_cases h : s.persistenceQueue.length < 200000 <;> simp [h]

/-! ### Claim C1 -/

/-- Claim C1 (amended): for a started engine that is not shutting down and a
key not currently pending, `schedule_message_delete` returns true and
inserts the entry due at `now + max(0, delay)`; a tick at time `t`
dispatches an entry only if its due time is at most half a tick after `t`
(so dispatch can occur up to `tick/2` before the due time), and an entry of
the visited slot that is not yet due within that half-tick cutoff is not
dispatched but reinserted unchanged into the slot computed from its own
due time — whence it is dispatched only at a later visit of that slot, up
to a full wheel revolution later, rather than within one tick interval of
its due time. -/
theorem claim1_schedule_and_dispatch_rule
    (s : EngineState) (chatId messageId : ℤ) (d : ℚ) (kind : String)
    (docs : List RestoredDocument) (now nowUtc : ℚ)
    (hstarted : s.started = true) (hshut : s.shuttingDown = false)
    (hfree : alGet (chatId, messageId) s.entries = none) :
    (scheduleMessageDelete s chatId messageId (some d) kind docs now nowUtc).1 = true
    ∧ alGet (chatId, messageId)
        ((scheduleMessageDelete s chatId messageId (some d) kind docs now nowUtc).2.entries) =
        some ⟨chatId, messageId, now + pyMax 0 d, 0⟩
    ∧ (∀ (s' : EngineState) (t : ℚ) (e : ScheduledDeleteEntry),
        e ∈ (collectDueEntries s' t).1 → e.dueAt - s'.tickIntervalSeconds / 2 ≤ t)
    ∧ (∀ (s' : EngineState) (t : ℚ) (k : DeleteKey) (e : ScheduledDeleteEntry),
        ((s'.slots s'.currentSlot).map Prod.fst).Nodup →
        (k, e) ∈ s'.slots s'.currentSlot →
        ¬ e.dueAt ≤ t + s'.tickIntervalSeconds / 2 →
        e ∉ (collectDueEntries s' t).1 ∧
          alGet k ((collectDueEntries s' t).2.slots (slotForDue s' e.dueAt)) = some e) := by
  refine ⟨?_, ?_, ?_, ?_⟩
  · simp [scheduleMessageDelete, scheduleEntry, hstarted, hshut, hfree]
  · simp only [scheduleMessageDelete, hshut, Bool.false_eq_true, if_false, hstarted, if_true]
    unfold scheduleEntry
    simp only [hfree, Option.isSome_none, Bool.false_eq_true, if_false]
    by_cases hq : s.persistenceEnabled && true
    · simp [hq, enqueue_entries]
    · simp [hq]
  · intro s' t e he
    have := collectLoop_dispatch_le s' (t + s'.tickIntervalSeconds / 2) _ _ e
      (by simpa [collectDueEntries] using he)
    linarith
  · intro s' t k e hnodup hmem hdue
    constructor
    · intro he
      exact hdue (collectLoop_dispatch_le s' (t + s'.tickIntervalSeconds / 2) _ _ e
        (by simpa [collectDueEntries] using he))
    · simpa [collectDueEntries] using
        collectLoop_slots_stale s' (t + s'.tickIntervalSeconds / 2) k e
          (s'.slots s'.currentSlot) _ hnodup hmem hdue

/-- Constructor arguments of the C1 test engine: a one-second tick, all
other options left at their defaults. -/
def c1Params : EngineParams := { tickIntervalSeconds := 1 }

/-- The delete worker embedded in the C1 test engine. -/
def c1Worker : DeleteWorkerState :=
  { maxBatchSize := 100, maxRetryDelaySeconds := 45, baseRetryDelaySeconds := 3 / 2,
    batchDeleteSupported := none }

/-- The C1 test engine as constructed (bucket count
`max 512 (ceil(100 / 1) + 1) = 512`). -/
def c1Engine : EngineState :=
  { deleteDelaySeconds := 45, tickIntervalSeconds := 1, maxRetryAttempts := 5,
    metricsLogIntervalSeconds := 60, bucketCount := 512,
    deleteWorker := c1Worker, slots := fun _ => [], entries := [], metrics := {},
    started := false, shuttingDown := false, currentSlot := 0,
    persistenceEnabled := false, persistenceTtlHours := 24, restoreLimit := 20000,
    persistenceQueue := [], persistenceDropCount := 0 }

/-- Entry scheduled at time 0 with delay 2.6 s, hence due at 2.6 and in
wheel slot 2. -/
def entry1 : ScheduledDeleteEntry := ⟨7, 11, 13 / 5, 0⟩

/-- Entry scheduled at time 0 with delay 1.4 s, hence due at 1.4 and in
wheel slot 1. -/
def entry2 : ScheduledDeleteEntry := ⟨7, 12, 7 / 5, 0⟩

/-- The C1 engine after auto-start and the first schedule call. -/
def c1E1 : EngineState :=
  { c1Engine with
    started := true
    slots := fun j => if j = 2 then [((7, 11), entry1)] else []
    entries := [((7, 11), entry1)]
    metrics := { scheduledCount := 1, botContentScheduled := 1 } }

/-- The C1 engine after both schedule calls. -/
def c1E2 : EngineState :=
  { c1Engine with
    started := true
    slots := fun j =>
      if j = 1 then [((7, 12), entry2)] else if j = 2 then [((7, 11), entry1)] else []
    entries := [((7, 12), entry2), ((7, 11), entry1)]
    metrics := { scheduledCount := 2, botContentScheduled := 2 } }

/-- The wheel after `entry2` has been collected: only `entry1` remains, in
slot 2. -/
def c1SlotsLate : ℕ → List (DeleteKey × ScheduledDeleteEntry) :=
  fun j => if j = 2 then [((7, 11), entry1)] else []

theorem c1_mk_eq : mkAutoDeleteEngine c1Params = Except.ok c1Engine := by
  norm_num [mkAutoDeleteEngine, mkDeleteWorker, c1Params, c1Engine, c1Worker]
  omega

theorem c1_sched1 : scheduleMessageDelete c1Engine 7 11 (some (13 / 5)) "bot_content" [] 0 0 =
    (true, c1E1) := by
  norm_num [scheduleMessageDelete, startEngine, scheduleEntry, slotForDue, pyInt, pyMax,
    alInsert, alErase, c1Engine, c1Worker, c1E1, entry1, enqueuePersistenceMutation]
  funext j
  rcases eq_or_ne j 2 with hj | hj <;> simp [hj]

theorem c1_sched2 : scheduleMessageDelete c1E1 7 12 (some (7 / 5)) "bot_content" [] 0 0 =
    (true, c1E2) := by
  norm_num [scheduleMessageDelete, scheduleEntry, slotForDue, pyInt, pyMax, Prod.mk.injEq,
    alInsert, alErase, c1Engine, c1Worker, c1E1, c1E2, entry1, entry2,
    enqueuePersistenceMutation]
  funext j
  rcases eq_or_ne j 1 with h1 | h1 <;> rcases eq_or_ne j 2 with h2 | h2 <;>
    simp [h1, h2, entry1, entry2]

theorem c1_tick0 : collectDueEntries c1E2 0 = ([], { c1E2 with currentSlot := 1 }) := by
  norm_num [collectDueEntries, collectLoop, c1E2, c1Engine]
  funext j
  rcases eq_or_ne j 0 with h0 | h0 <;> simp [h0]

theorem c1_tick1 : collectDueEntries { c1E2 with currentSlot := 1 } 1 =
    ([entry2], { c1E2 with currentSlot := 2, slots := c1SlotsLate }) := by
  norm_num [collectDueEntries, collectLoop, c1E2, c1Engine, c1SlotsLate, entry1, entry2]
  funext j
  rcases eq_or_ne j 1 with h1 | h1 <;> rcases eq_or_ne j 2 with h2 | h2 <;>
    simp [h1, h2, c1SlotsLate, entry1, entry2]

theorem c1_tick2 : collectDueEntries { c1E2 with currentSlot := 2, slots := c1SlotsLate } 2 =
    ([], { c1E2 with currentSlot := 3, slots := c1SlotsLate }) := by
  norm_num [collectDueEntries, collectLoop, c1E2, c1Engine, c1SlotsLate, entry1,
    slotForDue, pyInt, alInsert, alErase]
  funext j
  rcases eq_or_ne j 2 with h2 | h2 <;> simp [h2, c1SlotsLate, entry1]

theorem c1_tick3 : collectDueEntries { c1E2 with currentSlot := 3, slots := c1SlotsLate } 3 =
    ([], { c1E2 with currentSlot := 4, slots := c1SlotsLate }) := by
  norm_num [collectDueEntries, collectLoop, c1E2, c1Engine, c1SlotsLate]
  funext j
  rcases eq_or_ne j 3 with h3 | h3 <;> rcases eq_or_ne j 2 with h2 | h2 <;>
    simp [h3, h2, c1SlotsLate]

/-- Claim C1 witness: on the started C1 test engine at time 0, scheduling
key (7, 11) with delay 2.6 s is accepted and records due time
`0 + max(0, 2.6)`. -/
theorem claim1_schedule_and_dispatch_rule_witness :
    (scheduleMessageDelete { c1Engine with started := true } 7 11 (some (13 / 5)) "bot_content"
      [] 0 0).1 = true
    ∧ alGet (7, 11) ((scheduleMessageDelete { c1Engine with started := true } 7 11
        (some (13 / 5)) "bot_content" [] 0 0).2.entries) =
        some ⟨7, 11, 0 + pyMax 0 (13 / 5), 0⟩ := by
  have h := claim1_schedule_and_dispatch_rule { c1Engine with started := true } 7 11 (13 / 5)
    "bot_content" [] 0 0 rfl rfl (by simp [c1Engine])
  exact ⟨h.1, h.2.1⟩

/-- Claim C1 counterexample, refuting the stated dispatch window on the
engine with a one-second tick started at time 0 under an ideal tick
sequence 0, 1, 2, 3: the key (7, 12) scheduled at time 0 with delay 1.4 s
is dispatched at the tick at time 1, which is strictly earlier than
`now + delay = 1.4`; and the key (7, 11) scheduled at time 0 with delay
2.6 s is dispatched at none of the ticks at times 0..3 — every tick no
later than `now + delay + tick_interval = 3.6` — and is still pending
afterwards (its slot, 2, was visited at time 2, more than half a tick
before it was due, so it was reinserted to wait a full wheel
revolution). -/
theorem claim1_dispatch_window_counterexample :
    mkAutoDeleteEngine c1Params = Except.ok c1Engine
    ∧ scheduleMessageDelete c1Engine 7 11 (some (13 / 5)) "bot_content" [] 0 0 = (true, c1E1)
    ∧ scheduleMessageDelete c1E1 7 12 (some (7 / 5)) "bot_content" [] 0 0 = (true, c1E2)
    ∧ (runTicks c1E2 [0, 1, 2, 3]).1 = [[], [entry2], [], []]
    ∧ alGet (7, 11) ((runTicks c1E2 [0, 1, 2, 3]).2.entries) = some entry1
    ∧ (1 : ℚ) < 0 + 7 / 5
    ∧ (3 : ℚ) < 0 + 13 / 5 + 1
    ∧ (0 : ℚ) + 13 / 5 + 1 < 4 := by
  have hrun : runTicks c1E2 [0, 1, 2, 3] =
      ([[], [entry2], [], []], { c1E2 with currentSlot := 4, slots := c1SlotsLate }) := by
    simp only [runTicks, c1_tick0, c1_tick1, c1_tick2, c1_tick3]
  refine ⟨c1_mk_eq, c1_sched1, c1_sched2, ?_, ?_, by norm_num, by norm_num, by norm_num⟩
  · rw [hrun]
  · rw [hrun]
    simp [c1E2, entry1, entry2]

/-! ### Claim C7 -/

/-- Claim C7: after `shutdown()` — called from any state, including a
never-started engine — every subsequent schedule call returns false and
leaves the state (wheel slots, pending index, scheduled counter, and
everything else) completely unchanged; shutdown itself clears the pending
index and every wheel slot. -/
theorem claim7_shutdown_blocks_schedule (s : EngineState) (chatId messageId : ℤ)
    (delaySeconds : Option ℚ) (scheduleKind : String) (docs : List RestoredDocument)
    (now nowUtc : ℚ) :
    scheduleMessageDelete (shutdownEngine s) chatId messageId delaySeconds scheduleKind docs
        now nowUtc = (false, shutdownEngine s)
    ∧ (shutdownEngine s).entries = []
    ∧ (∀ j, (shutdownEngine s).slots j = [])
    ∧ (shutdownEngine s).metrics.scheduledCount = s.metrics.scheduledCount := by
  refine ⟨?_, rfl, fun j => rfl, rfl⟩
  simp [scheduleMessageDelete, shutdownEngine]

/-! ### Claim C10 -/

/-- Claim C10: a schedule call with a negative `delay_seconds` is not
rejected: on a started, non-shutting-down engine with the key free, it is
accepted with the delay clamped to 0, i.e. the entry is due exactly at the
current time; a call with `delay_seconds` omitted uses the engine's
configured default delete delay. -/
theorem claim10_negative_delay_clamped (s : EngineState) (chatId messageId : ℤ) (d : ℚ)
    (scheduleKind : String) (docs : List RestoredDocument) (now nowUtc : ℚ)
    (hstarted : s.started = true) (hshut : s.shuttingDown = false)
    (hfree : alGet (chatId, messageId) s.entries = none) (hneg : d < 0) :
    (scheduleMessageDelete s chatId messageId (some d) scheduleKind docs now nowUtc).1 = true
    ∧ alGet (chatId, messageId)
        ((scheduleMessageDelete s chatId messageId (some d) scheduleKind docs
          now nowUtc).2.entries) = some ⟨chatId, messageId, now, 0⟩
    ∧ (scheduleMessageDelete s chatId messageId none scheduleKind docs now nowUtc).1 = true
    ∧ alGet (chatId, messageId)
        ((scheduleMessageDelete s chatId messageId none scheduleKind docs
          now nowUtc).2.entries) =
        some ⟨chatId, messageId, now + (s.deleteDelaySeconds : ℚ), 0⟩ := by
  have hmax : pyMax 0 d = 0 := by
    rw [pyMax_eq_max]
    exact max_eq_left hneg.le
  refine ⟨?_, ?_, ?_, ?_⟩
  · simp [scheduleMessageDelete, scheduleEntry, hstarted, hshut, hfree]
  · simp only [scheduleMessageDelete, hshut, Bool.false_eq_true, if_false, hstarted, if_true,
      hmax]
    unfold scheduleEntry
    simp only [hfree, Option.isSome_none, Bool.false_eq_true, if_false]
    by_cases hq : s.persistenceEnabled && true
    · simp [hq, enqueue_entries]
    · simp [hq]
  · simp [scheduleMessageDelete, scheduleEntry, hstarted, hshut, hfree]
  · simp only [scheduleMessageDelete, hshut, Bool.false_eq_true, if_false, hstarted, if_true]
    unfold scheduleEntry
    simp only [hfree, Option.isSome_none, Bool.false_eq_true, if_false]
    by_cases hq : s.persistenceEnabled && true
    · simp [hq, enqueue_entries]
    · simp [hq]

/-- Claim C10 witness: on the started C1 test engine at time 3, scheduling
key (9, 4) with delay −2 s is accepted due at time 3, and scheduling key
(9, 4) with the delay omitted is accepted due at `3 + 45`. -/
theorem claim10_negative_delay_clamped_witness :
    (scheduleMessageDelete { c1Engine with started := true } 9 4 (some (-2)) "bot_content"
      [] 3 3).1 = true
    ∧ alGet (9, 4) ((scheduleMessageDelete { c1Engine with started := true } 9 4 (some (-2))
        "bot_content" [] 3 3).2.entries) = some ⟨9, 4, 3, 0⟩
    ∧ (scheduleMessageDelete { c1Engine with started := true } 9 4 none "bot_content"
      [] 3 3).1 = true
    ∧ alGet (9, 4) ((scheduleMessageDelete { c1Engine with started := true } 9 4 none
        "bot_content" [] 3 3).2.entries) =
        some ⟨9, 4, 3 + (({ c1Engine with started := true } : EngineState).deleteDelaySeconds : ℚ),
          0⟩ :=
  claim10_negative_delay_clamped { c1Engine with started := true } 9 4 (-2) "bot_content" [] 3 3
    rfl rfl (by simp [c1Engine]) (by norm_num)

/-! ### Claim C8 -/

/-- Claim C8 (amended): engine construction fails exactly when one of the
five validated options is out of bounds — delete delay < 1, tick
interval ≤ 0, max retry attempts < 0, worker concurrency < 1, or max
batch size < 1.  The remaining recognized options (retry base and ceiling
delay, metrics log interval, persistence ttl, restore cap) are accepted
unvalidated, whatever their sign. -/
theorem claim8_validated_options_iff (p : EngineParams) :
    (mkAutoDeleteEngine p).isOk = true ↔
      1 ≤ p.deleteDelaySeconds ∧ 0 < p.tickIntervalSeconds ∧ 0 ≤ p.maxRetryAttempts ∧
        1 ≤ p.workerConcurrency ∧ 1 ≤ p.maxBatchSize := by
  unfold mkAutoDeleteEngine mkDeleteWorker
  split_ifs with h1 h2 h3 h4 h5
  · refine iff_of_false (by simp [Except.isOk, Except.toBool]) ?_
    rintro ⟨ha, hb, hc, hd, he⟩
    omega
  · refine iff_of_false (by simp [Except.isOk, Except.toBool]) ?_
    rintro ⟨ha, hb, hc, hd, he⟩
    exact absurd hb (not_lt.mpr h2)
  · refine iff_of_false (by simp [Except.isOk, Except.toBool]) ?_
    rintro ⟨ha, hb, hc, hd, he⟩
    omega
  · refine iff_of_false (by simp [Except.isOk, Except.toBool]) ?_
    rintro ⟨ha, hb, hc, hd, he⟩
    omega
  · refine iff_of_false (by simp [Except.isOk, Except.toBool]) ?_
    rintro ⟨ha, hb, hc, hd, he⟩
    omega
  · exact iff_of_true rfl ⟨by omega, not_le.mp h2, by omega, by omega, by omega⟩

/-- Engine parameters with every unvalidated recognized option
non-positive: retry base delay 0, retry ceiling −3, metrics log
interval −1, persistence ttl −5, restore cap 0. -/
def c8Params : EngineParams :=
  { retryBaseDelaySeconds := 0, retryMaxDelaySeconds := -3,
    metricsLogIntervalSeconds := -1, persistenceTtlHours := -5, restoreLimit := 0 }

/-- Claim C8 counterexample: construction succeeds (raises no error) even
though the retry base delay, retry ceiling delay, metrics log interval,
persistence ttl and restore cap are all non-positive — the constructor
validates only delete delay, tick interval, max retry attempts, worker
concurrency and max batch size. -/
theorem claim8_unvalidated_options_counterexample :
    (mkAutoDeleteEngine c8Params).isOk = true := by
  norm_num [mkAutoDeleteEngine, mkDeleteWorker, c8Params, Except.isOk, Except.toBool]

/-! ### Claim C5 -/

/-- A platform whose batch delete call always reports a rate limit with
the given advertised wait. -/
def rateLimitBot (waitSecs : ℚ) : BotModel :=
  { hasDeleteMessages := true
    batchCall := fun _ _ => BatchCallOutcome.retryAfterExc waitSecs
    singleCall := fun _ _ => SingleCallOutcome.success }

/-- Claim C5: the computed retry delay is `base * 2 ^ attempt`,
lower-bounded by the advertised wait when present, then clamped to
`[1/2, ceiling]`; it always lies in that interval, an advertised wait not
above the ceiling lower-bounds the result, the pre-clamp value grows
strictly geometrically in the attempt, and through the rate-limited batch
path an advertised wait of 10 s on attempt 0 yields a directive delay in
`[10, ceiling]`. -/
theorem claim5_backoff_formula (w : DeleteWorkerState) (e : ScheduledDeleteEntry)
    (wadv : ℚ) (chatId : ℤ)
    (hfloor : 1 / 2 ≤ w.maxRetryDelaySeconds) (hbase : 0 < w.baseRetryDelaySeconds) :
    computeBackoff w e (some wadv) =
        max (1 / 2) (min (max (w.baseRetryDelaySeconds * 2 ^ e.attempt) wadv)
          w.maxRetryDelaySeconds)
    ∧ computeBackoff w e none =
        max (1 / 2) (min (w.baseRetryDelaySeconds * 2 ^ e.attempt) w.maxRetryDelaySeconds)
    ∧ 1 / 2 ≤ computeBackoff w e (some wadv)
    ∧ computeBackoff w e (some wadv) ≤ w.maxRetryDelaySeconds
    ∧ (wadv ≤ w.maxRetryDelaySeconds → wadv ≤ computeBackoff w e (some wadv))
    ∧ (∀ a b : ℕ, a < b →
        w.baseRetryDelaySeconds * 2 ^ a < w.baseRetryDelaySeconds * 2 ^ b)
    ∧ (10 ≤ w.maxRetryDelaySeconds → e.attempt = 0 →
        ∀ rd ∈ (deleteChunk w none (rateLimitBot 10) chatId [e]).2.retry,
          10 ≤ rd.delaySeconds ∧ rd.delaySeconds ≤ w.maxRetryDelaySeconds) := by
  have hfsome : computeBackoff w e (some wadv) =
      max (1 / 2) (min (max (w.baseRetryDelaySeconds * 2 ^ e.attempt) wadv)
        w.maxRetryDelaySeconds) := by
    simp [computeBackoff, boundedRetryDelay, pyMax_eq_max, pyMin_eq_min]
  have hfnone : computeBackoff w e none =
      max (1 / 2) (min (w.baseRetryDelaySeconds * 2 ^ e.attempt) w.maxRetryDelaySeconds) := by
    simp [computeBackoff, boundedRetryDelay, pyMax_eq_max, pyMin_eq_min]
  have hlow : ∀ v : ℚ, v ≤ w.maxRetryDelaySeconds → ∀ exp : ℚ,
      v ≤ max (1 / 2) (min (max exp v) w.maxRetryDelaySeconds) := by
    intro v hv exp
    exact le_trans (le_min (le_max_right exp v) hv) (le_max_right _ _)
  refine ⟨hfsome, hfnone, ?_, ?_, ?_, ?_, ?_⟩
  · rw [hfsome]
    exact le_max_left _ _
  · rw [hfsome]
    exact max_le hfloor (min_le_right _ _)
  · intro hw
    rw [hfsome]
    exact hlow wadv hw _
  · intro a b hab
    have h2 : (2 : ℚ) ^ a < 2 ^ b := by
      exact pow_lt_pow_right₀ (by norm_num) hab
    exact mul_lt_mul_of_pos_left h2 hbase
  · intro hten hatt rd hrd
    have hb : boundedRetryDelay w (retryAfterOrOne 10) = 10 := by
      rw [retryAfterOrOne, if_neg (by norm_num), boundedRetryDelay, pyMax_eq_max,
        pyMin_eq_min, min_eq_left hten, max_eq_right (by norm_num)]
    have hrd' : rd = ⟨e, computeBackoff w e (some (boundedRetryDelay w (retryAfterOrOne 10)))⟩ := by
      simpa [deleteChunk, rateLimitBot] using hrd
    subst hrd'
    rw [hb]
    have hexp : computeBackoff w e (some 10) =
        max (1 / 2) (min (max (w.baseRetryDelaySeconds * 2 ^ e.attempt) 10)
          w.maxRetryDelaySeconds) := by
      simp [computeBackoff, boundedRetryDelay, pyMax_eq_max, pyMin_eq_min]
    constructor
    · rw [hexp]
      exact hlow 10 hten _
    · rw [hexp]
      exact max_le (le_trans (by norm_num : (1 : ℚ) / 2 ≤ 10) hten) (min_le_right _ _)

/-- Claim C5 witness: with ceiling 45, base 1.5 and attempt 0 the formula
facts hold, and the rate-limited batch path with advertised wait 10 yields
a delay within `[10, 45]`. -/
theorem claim5_backoff_formula_witness :
    computeBackoff c1Worker ⟨7, 11, 0, 0⟩ (some 10) =
        max (1 / 2) (min (max ((3 : ℚ) / 2 * 2 ^ 0) 10) 45)
    ∧ (10 : ℚ) ≤ computeBackoff c1Worker ⟨7, 11, 0, 0⟩ (some 10)
    ∧ computeBackoff c1Worker ⟨7, 11, 0, 0⟩ (some 10) ≤ 45
    ∧ ∀ rd ∈ (deleteChunk c1Worker none (rateLimitBot 10) 7 [⟨7, 11, 0, 0⟩]).2.retry,
        10 ≤ rd.delaySeconds ∧ rd.delaySeconds ≤ 45 := by
  have h := claim5_backoff_formula c1Worker ⟨7, 11, 0, 0⟩ 10 7 (by norm_num [c1Worker])
    (by norm_num [c1Worker])
  exact ⟨h.1, h.2.2.2.2.1 (by norm_num [c1Worker]), h.2.2.2.1,
    h.2.2.2.2.2.2 (by norm_num [c1Worker]) rfl⟩

/-! ### Claim C9 -/

/-- Every chunk produced by `_chunk_entries` has at most `size` entries. -/
theorem chunkEntries_length_le (size : ℕ) (l : List ScheduledDeleteEntry) :
    ∀ c ∈ chunkEntries size l, c.length ≤ size := by
  suffices H : ∀ n (l : List ScheduledDeleteEntry), l.length ≤ n →
      ∀ c ∈ chunkEntries size l, c.length ≤ size by
    exact H l.length l le_rfl
  intro n
  induction n with
  | zero =>
      intro l hl c hc
      have : l = [] := List.length_eq_zero.mp (Nat.le_zero.mp hl)
      rw [chunkEntries, dif_pos (Or.inl this)] at hc
      cases hc
  | succ n ih =>
      intro l hl c hc
      by_cases h : l = [] ∨ size = 0
      · rw [chunkEntries, dif_pos h] at hc
        cases hc
      · rw [chunkEntries, dif_neg h] at hc
        push_neg at h
        rcases List.mem_cons.mp hc with rfl | hc'
        · simpa using Nat.min_le_left size l.length
        · refine ih (l.drop size) ?_ c hc'
          have hlen : 0 < l.length := List.length_pos.mpr h.1
          have hsize : 0 < size := Nat.pos_of_ne_zero h.2
          simp only [List.length_drop]
          omega

/-- Claim C9: the delete executor caps the effective batch size at 100:
a worker constructed with any configured `max_batch_size` stores
`min(configured, 100)`, and every chunk handed to a platform call has
length at most that capped bound (hence at most 100). -/
theorem claim9_effective_batch_cap (maxBatchSize : ℤ)
    (maxRetryDelaySeconds baseRetryDelaySeconds : ℚ) (w : DeleteWorkerState)
    (hmk : mkDeleteWorker maxBatchSize maxRetryDelaySeconds baseRetryDelaySeconds =
      Except.ok w)
    (entries : List ScheduledDeleteEntry) (c : List ScheduledDeleteEntry)
    (hc : c ∈ chunkEntries w.maxBatchSize entries) :
    w.maxBatchSize = (min maxBatchSize 100).toNat
    ∧ c.length ≤ (min maxBatchSize 100).toNat
    ∧ c.length ≤ 100 := by
  have hw : w.maxBatchSize = (min maxBatchSize 100).toNat := by
    unfold mkDeleteWorker at hmk
    by_cases h : maxBatchSize < 1
    · rw [if_pos h] at hmk
      cases hmk
    · rw [if_neg h] at hmk
      have := congrArg (fun x =>
        match x with
        | Except.ok v => DeleteWorkerState.maxBatchSize v
        | Except.error _ => 0) hmk
      simpa using this.symm
  have hlen := chunkEntries_length_le w.maxBatchSize entries c hc
  rw [hw] at hlen
  refine ⟨hw, hlen, le_trans hlen ?_⟩
  omega

/-- The worker obtained from a configured `max_batch_size` of 250. -/
def c9Worker : DeleteWorkerState :=
  { maxBatchSize := 100, maxRetryDelaySeconds := 45, baseRetryDelaySeconds := 3 / 2,
    batchDeleteSupported := none }

/-- Claim C9 witness: a worker configured with `max_batch_size = 250`
stores the capped bound 100, and the single chunk of a three-entry input
has length at most 100. -/
theorem claim9_effective_batch_cap_witness :
    c9Worker.maxBatchSize = (min (250 : ℤ) 100).toNat
    ∧ ([⟨7, 11, 0, 0⟩, ⟨7, 12, 0, 0⟩, ⟨7, 13, 0, 0⟩] :
        List ScheduledDeleteEntry).length ≤ (min (250 : ℤ) 100).toNat
    ∧ ([⟨7, 11, 0, 0⟩, ⟨7, 12, 0, 0⟩, ⟨7, 13, 0, 0⟩] :
        List ScheduledDeleteEntry).length ≤ 100 := by
  have hmk : mkDeleteWorker 250 45 (3 / 2) = Except.ok c9Worker := by
    rw [mkDeleteWorker, if_neg (by norm_num)]
    norm_num [c9Worker]
    omega
  have hc : ([⟨7, 11, 0, 0⟩, ⟨7, 12, 0, 0⟩, ⟨7, 13, 0, 0⟩] : List ScheduledDeleteEntry) ∈
      chunkEntries c9Worker.maxBatchSize [⟨7, 11, 0, 0⟩, ⟨7, 12, 0, 0⟩, ⟨7, 13, 0, 0⟩] := by
    rw [chunkEntries, dif_neg (by simp [c9Worker])]
    simp [c9Worker, chunkEntries]
  exact claim9_effective_batch_cap 250 45 (3 / 2) c9Worker hmk _ _ hc

/-! ### Claim C6 -/

/-- Claim C6: in the one-by-one fallback, an entry whose delete call fails
with a bad request whose text matches the "message already deleted" /
"message not deletable" patterns is classified as deleted — it appears in
the `deleted` list and neither in `failed` nor as the entry of any retry
directive. -/
theorem claim6_already_deleted_is_success (w : DeleteWorkerState) (bot : BotModel)
    (chatId : ℤ) (entries : List ScheduledDeleteEntry) (e : ScheduledDeleteEntry)
    (text : String)
    (hcall : bot.singleCall chatId e.messageId = SingleCallOutcome.badRequest text)
    (htext : isAlreadyDeletedOrNotDeletable (lowerChars text) = true)
    (hmem : e ∈ entries) :
    e ∈ (deleteChunkSequential w bot chatId entries).deleted
    ∧ e ∉ (deleteChunkSequential w bot chatId entries).failed
    ∧ (∀ rd ∈ (deleteChunkSequential w bot chatId entries).retry, rd.entry ≠ e) := by
  induction entries with
  | nil => cases hmem
  | cons x rest ih =>
      by_cases hx : x = e
      · subst hx
        have ihr : x ∉ (deleteChunkSequential w bot chatId rest).failed
            ∧ ∀ rd ∈ (deleteChunkSequential w bot chatId rest).retry, rd.entry ≠ x := by
          by_cases hm : x ∈ rest
          · exact ⟨(ih hm).2.1, (ih hm).2.2⟩
          · clear ih hmem
            induction rest with
            | nil => exact ⟨by simp [deleteChunkSequential], by simp [deleteChunkSequential]⟩
            | cons y ys ihy =>
                have hy : y ≠ x := fun hx => hm (hx ▸ List.mem_cons_self _ _)
                have hys : x ∉ ys := fun hx => hm (List.mem_cons_of_mem _ hx)
                rcases ihy hys with ⟨ih1, ih2⟩
                unfold deleteChunkSequential
                rcases hout : bot.singleCall chatId y.messageId with _ | t | t | secs | exc | _
                · exact ⟨ih1, ih2⟩
                · by_cases ht : isAlreadyDeletedOrNotDeletable (lowerChars t)
                  · simp only [ht, if_true]
                    exact ⟨ih1, ih2⟩
                  · simp only [ht, Bool.false_eq_true, if_false]
                    refine ⟨?_, ih2⟩
                    intro hmem'
                    rcases List.mem_cons.mp hmem' with hh | hh
                    · exact hy hh.symm
                    · exact ih1 hh
                · refine ⟨?_, ih2⟩
                  intro hmem'
                  rcases List.mem_cons.mp hmem' with hh | hh
                  · exact hy hh.symm
                  · exact ih1 hh
                · refine ⟨ih1, ?_⟩
                  intro rd hrd
                  rcases List.mem_cons.mp hrd with hh | hh
                  · rw [hh]
                    exact hy
                  · exact ih2 rd hh
                · by_cases htemp : isTemporaryApiError exc
                  · simp only [htemp, not_true, Bool.true_eq_false, if_false, ite_false,
                      ite_true, not_false_eq_true, if_true]
                    refine ⟨ih1, ?_⟩
                    intro rd hrd
                    rcases List.mem_cons.mp hrd with hh | hh
                    · rw [hh]
                      exact hy
                    · exact ih2 rd hh
                  · simp only [htemp, not_false_eq_true, if_true, Bool.false_eq_true,
                      ite_true]
                    refine ⟨?_, ih2⟩
                    intro hmem'
                    rcases List.mem_cons.mp hmem' with hh | hh
                    · exact hy hh.symm
                    · exact ih1 hh
                · refine ⟨ih1, ?_⟩
                  intro rd hrd
                  rcases List.mem_cons.mp hrd with hh | hh
                  · rw [hh]
                    exact hy
                  · exact ih2 rd hh
        unfold deleteChunkSequential
        rw [hcall]
        simp only [htext, if_true]
        exact ⟨List.mem_cons_self _ _, ihr.1, ihr.2⟩
      · have hmem' : e ∈ rest := by
          rcases List.mem_cons.mp hmem with hh | hh
          · exact absurd hh.symm hx
          · exact hh
        rcases ih hmem' with ⟨ih1, ih2, ih3⟩
        have hxe : x ≠ e := hx
        unfold deleteChunkSequential
        rcases hout : bot.singleCall chatId x.messageId with _ | t | t | secs | exc | _
        · exact ⟨List.mem_cons_of_mem _ ih1, ih2, ih3⟩
        · by_cases ht : isAlreadyDeletedOrNotDeletable (lowerChars t)
          · simp only [ht, if_true]
            exact ⟨List.mem_cons_of_mem _ ih1, ih2, ih3⟩
          · simp only [ht, Bool.false_eq_true, if_false]
            refine ⟨ih1, ?_, ih3⟩
            intro hmemf
            rcases List.mem_cons.mp hmemf with hh | hh
            · exact hxe hh.symm
            · exact ih2 hh
        · refine ⟨ih1, ?_, ih3⟩
          intro hmemf
          rcases List.mem_cons.mp hmemf with hh | hh
          · exact hxe hh.symm
          · exact ih2 hh
        · refine ⟨ih1, ih2, ?_⟩
          intro rd hrd
          rcases List.mem_cons.mp hrd with hh | hh
          · rw [hh]
            exact hxe
          · exact ih3 rd hh
        · by_cases htemp : isTemporaryApiError exc
          · simp only [htemp, not_true, if_false, ite_false, ite_true, not_false_eq_true,
              if_true, Bool.true_eq_false]
            refine ⟨ih1, ih2, ?_⟩
            intro rd hrd
            rcases List.mem_cons.mp hrd with hh | hh
            · rw [hh]
              exact hxe
            · exact ih3 rd hh
          · simp only [htemp, not_false_eq_true, if_true, Bool.false_eq_true, ite_true]
            refine ⟨ih1, ?_, ih3⟩
            intro hmemf
            rcases List.mem_cons.mp hmemf with hh | hh
            · exact hxe hh.symm
            · exact ih2 hh
        · refine ⟨ih1, ih2, ?_⟩
          intro rd hrd
          rcases List.mem_cons.mp hrd with hh | hh
          · rw [hh]
            exact hxe
          · exact ih3 rd hh

/-- A platform whose single delete call always answers with the
"message to delete not found" bad request. -/
def c6Bot : BotModel :=
  { hasDeleteMessages := false
    batchCall := fun _ _ => BatchCallOutcome.unexpected
    singleCall := fun _ _ =>
      SingleCallOutcome.badRequest "Bad Request: message to delete not found" }

/-- Claim C6 witness: the entry whose delete answers
"Bad Request: message to delete not found" lands in the `deleted` list,
not in `failed` and not among the retry directives. -/
theorem claim6_already_deleted_is_success_witness :
    (⟨7, 11, 0, 0⟩ : ScheduledDeleteEntry) ∈
      (deleteChunkSequential c9Worker c6Bot 7 [⟨7, 11, 0, 0⟩]).deleted
    ∧ (⟨7, 11, 0, 0⟩ : ScheduledDeleteEntry) ∉
      (deleteChunkSequential c9Worker c6Bot 7 [⟨7, 11, 0, 0⟩]).failed
    ∧ (∀ rd ∈ (deleteChunkSequential c9Worker c6Bot 7 [⟨7, 11, 0, 0⟩]).retry,
        rd.entry ≠ ⟨7, 11, 0, 0⟩) :=
  claim6_already_deleted_is_success c9Worker c6Bot 7 [⟨7, 11, 0, 0⟩] ⟨7, 11, 0, 0⟩
    "Bad Request: message to delete not found" rfl (by decide)
    (List.mem_cons_self _ _)

/-! ### Claim C3 -/

/-- The entries accounted for by an execution result: the deleted and
failed lists, and the entry of each retry directive. -/
def resultEntries (r : DeleteExecutionResult) : List ScheduledDeleteEntry :=
  r.deleted ++ r.failed ++ r.retry.map RetryDeleteEntry.entry

theorem map_retry_entry (f : ScheduledDeleteEntry → ℚ) (l : List ScheduledDeleteEntry) :
    (l.map (fun e => (⟨e, f e⟩ : RetryDeleteEntry))).map RetryDeleteEntry.entry = l := by
  induction l with
  | nil => rfl
  | cons x rest ih => simp [ih]

theorem seq_resultEntries_perm (w : DeleteWorkerState) (bot : BotModel) (chatId : ℤ)
    (l : List ScheduledDeleteEntry) :
    (resultEntries (deleteChunkSequential w bot chatId l)).Perm l := by
  induction l with
  | nil => exact List.Perm.refl _
  | cons x rest ih =>
      unfold deleteChunkSequential
      rcases hout : bot.singleCall chatId x.messageId with _ | t | t | secs | exc | _
      · exact ih.cons x
      · by_cases ht : isAlreadyDeletedOrNotDeletable (lowerChars t)
        · simp only [ht, if_true]
          exact ih.cons x
        · simp only [ht, Bool.false_eq_true, if_false]
          exact (List.perm_middle.append_right _).trans (ih.cons x)
      · exact (List.perm_middle.append_right _).trans (ih.cons x)
      · simp only [resultEntries, List.map_cons]
        exact List.perm_middle.trans (ih.cons x)
      · by_cases htemp : isTemporaryApiError exc
        · simp only [htemp, not_true, Bool.true_eq_false, if_false, ite_false, ite_true,
            not_false_eq_true, if_true, resultEntries, List.map_cons]
          exact List.perm_middle.trans (ih.cons x)
        · simp only [htemp, not_false_eq_true, if_true, Bool.false_eq_true, ite_true]
          exact (List.perm_middle.append_right _).trans (ih.cons x)
      · simp only [resultEntries, List.map_cons]
        exact List.perm_middle.trans (ih.cons x)

theorem chunk_resultEntries_perm (w : DeleteWorkerState) (flag : Option Bool)
    (bot : BotModel) (chatId : ℤ) (l : List ScheduledDeleteEntry) :
    (resultEntries (deleteChunk w flag bot chatId l).2).Perm l := by
  unfold deleteChunk
  by_cases h1 : flag = some false
  · rw [if_pos h1]
    exact seq_resultEntries_perm w bot chatId l
  · rw [if_neg h1]
    by_cases h2 : ¬ bot.hasDeleteMessages
    · rw [if_pos h2]
      exact seq_resultEntries_perm w bot chatId l
    · rw [if_neg h2]
      rcases hout : bot.batchCall chatId (l.map ScheduledDeleteEntry.messageId) with
        _ | _ | t | t | secs | exc | _
      · simp [resultEntries]
      · exact seq_resultEntries_perm w bot chatId l
      · exact seq_resultEntries_perm w bot chatId l
      · simp [resultEntries]
      · simp only [resultEntries, List.nil_append, map_retry_entry]
        exact List.Perm.refl _
      · by_cases htemp : isTemporaryApiError exc
        · simp only [htemp, not_true, Bool.true_eq_false, if_false, ite_false, ite_true,
            not_false_eq_true, if_true, resultEntries, List.nil_append, map_retry_entry]
          exact List.Perm.refl _
        · simp only [htemp, not_false_eq_true, if_true, Bool.false_eq_true, ite_true]
          simp [resultEntries]
      · simp only [resultEntries, List.nil_append, map_retry_entry]
        exact List.Perm.refl _

theorem resultAppend_resultEntries_perm (a b : DeleteExecutionResult) :
    (resultEntries (resultAppend a b)).Perm (resultEntries a ++ resultEntries b) := by
  rw [← Multiset.coe_eq_coe]
  simp only [resultEntries, resultAppend, List.map_append, ← Multiset.coe_add]
  abel

theorem runChunks_resultEntries_perm (w : DeleteWorkerState) (bot : BotModel) (chatId : ℤ) :
    ∀ (chunks : List (List ScheduledDeleteEntry)) (flag : Option Bool),
    (resultEntries (runChunks w flag bot chatId chunks).2).Perm chunks.join := by
  intro chunks
  induction chunks with
  | nil =>
      intro flag
      exact List.Perm.refl _
  | cons c rest ih =>
      intro flag
      have hstep : (runChunks w flag bot chatId (c :: rest)).2 =
          resultAppend (deleteChunk w flag bot chatId c).2
            (runChunks w (deleteChunk w flag bot chatId c).1 bot chatId rest).2 := rfl
      rw [hstep, List.join]
      exact (resultAppend_resultEntries_perm _ _).trans
        ((chunk_resultEntries_perm w flag bot chatId c).append (ih _))

/-- The chunks of `_chunk_entries` concatenate back to the input. -/
theorem chunkEntries_join (size : ℕ) (hsize : size ≠ 0) (l : List ScheduledDeleteEntry) :
    (chunkEntries size l).join = l := by
  suffices H : ∀ n (l : List ScheduledDeleteEntry), l.length ≤ n →
      (chunkEntries size l).join = l by
    exact H l.length l le_rfl
  intro n
  induction n with
  | zero =>
      intro l hl
      have : l = [] := List.length_eq_zero.mp (Nat.le_zero.mp hl)
      rw [chunkEntries, dif_pos (Or.inl this), this]
      rfl
  | succ n ih =>
      intro l hl
      by_cases h : l = [] ∨ size = 0
      · rcases h with h | h
        · rw [chunkEntries, dif_pos (Or.inl h), h]
          rfl
        · exact absurd h hsize
      · rw [chunkEntries, dif_neg h]
        push_neg at h
        have hdrop : (chunkEntries size (l.drop size)).join = l.drop size := by
          refine ih (l.drop size) ?_
          have hlen : 0 < l.length := List.length_pos.mpr h.1
          have hsz : 0 < size := Nat.pos_of_ne_zero h.2
          simp only [List.length_drop]
          omega
        simp [hdrop]

/-- Claim C3: `delete_due_messages` partitions its input — the deleted and
failed lists together with the entries of the retry directives are a
permutation of the input entries (every input entry accounted for exactly
once, no foreign entry), across chunking and across every batch or
sequential-fallback path. -/
theorem claim3_result_partitions_input (w : DeleteWorkerState) (flag : Option Bool)
    (bot : BotModel) (chatId : ℤ) (entries : List ScheduledDeleteEntry)
    (hsize : 1 ≤ w.maxBatchSize) :
    (resultEntries (deleteDueMessages w flag bot chatId entries).2).Perm entries := by
  unfold deleteDueMessages
  by_cases h : entries = []
  · rw [if_pos h, h]
    exact List.Perm.refl _
  · rw [if_neg h]
    have hjoin := chunkEntries_join w.maxBatchSize (by omega) entries
    have hperm := runChunks_resultEntries_perm w bot chatId
      (chunkEntries w.maxBatchSize entries) flag
    rw [hjoin] at hperm
    exact hperm

/-- Claim C3 witness: a two-entry batch against the always-rate-limited
platform is partitioned — the result accounts for exactly the two input
entries. -/
theorem claim3_result_partitions_input_witness :
    (resultEntries (deleteDueMessages c9Worker none (rateLimitBot 10) 7
        [⟨7, 11, 0, 0⟩, ⟨7, 12, 0, 0⟩]).2).Perm [⟨7, 11, 0, 0⟩, ⟨7, 12, 0, 0⟩] :=
  claim3_result_partitions_input c9Worker none (rateLimitBot 10) 7
    [⟨7, 11, 0, 0⟩, ⟨7, 12, 0, 0⟩] (by norm_num [c9Worker])

/-! ### Claim C4 -/

/-- `slots` of a state never change under `enqueuePersistenceMutation`. -/
theorem enqueue_slots (s : EngineState) (m : PendingDeleteMutation) :
    (enqueuePersistenceMutation s m).slots = s.slots := by
  unfold enqueuePersistenceMutation
  by_cases h : s.persistenceQueue.length < 200000 <;> simp [h]

/-- `metrics` of a state never change under `enqueuePersistenceMutation`. -/
theorem enqueue_metrics (s : EngineState) (m : PendingDeleteMutation) :
    (enqueuePersistenceMutation s m).metrics = s.metrics := by
  unfold enqueuePersistenceMutation
  by_cases h : s.persistenceQueue.length < 200000 <;> simp [h]

/-- Claim C4: applying a result holding one retry directive: a directive
whose key is no longer pending changes nothing; for a pending key with
exhausted attempts (incremented attempt above `max_retry_attempts`) the
entry leaves the pending index, the failed counter grows by exactly one,
and no wheel slot changes (not rescheduled); otherwise the entry is
reinserted into the index and into the wheel slot of `now + delay`, due at
`now + directive.delay` with the incremented attempt. -/
theorem claim4_retry_directive_application (s : EngineState) (d : RetryDeleteEntry)
    (now nowUtc : ℚ) :
    (alGet (d.entry.chatId, d.entry.messageId) s.entries = none →
      applyDeleteResult s ⟨[], [], [d]⟩ now nowUtc = s)
    ∧ ((alGet (d.entry.chatId, d.entry.messageId) s.entries).isSome = true →
        s.maxRetryAttempts < d.entry.attempt + 1 →
        alGet (d.entry.chatId, d.entry.messageId)
            (applyDeleteResult s ⟨[], [], [d]⟩ now nowUtc).entries = none
        ∧ (applyDeleteResult s ⟨[], [], [d]⟩ now nowUtc).metrics.failedCount =
            s.metrics.failedCount + 1
        ∧ (applyDeleteResult s ⟨[], [], [d]⟩ now nowUtc).slots = s.slots)
    ∧ ((alGet (d.entry.chatId, d.entry.messageId) s.entries).isSome = true →
        d.entry.attempt + 1 ≤ s.maxRetryAttempts →
        alGet (d.entry.chatId, d.entry.messageId)
            (applyDeleteResult s ⟨[], [], [d]⟩ now nowUtc).entries =
          some ⟨d.entry.chatId, d.entry.messageId, now + d.delaySeconds, d.entry.attempt + 1⟩
        ∧ alGet (d.entry.chatId, d.entry.messageId)
            ((applyDeleteResult s ⟨[], [], [d]⟩ now nowUtc).slots
              (slotForDue s (now + d.delaySeconds))) =
          some ⟨d.entry.chatId, d.entry.messageId, now + d.delaySeconds,
            d.entry.attempt + 1⟩) := by
  refine ⟨?_, ?_, ?_⟩
  · intro hkey
    simp [applyDeleteResult, applyRetryStep, hkey]
  · intro hkey hmax
    have hnot : ¬ (alGet (d.entry.chatId, d.entry.messageId) s.entries).isSome = false := by
      rw [hkey]
      simp
    unfold applyDeleteResult
    simp only [List.foldl_cons, List.foldl_nil]
    unfold applyRetryStep
    rw [if_neg hnot, if_pos hmax]
    by_cases hp : s.persistenceEnabled
    · simp [hp, enqueue_entries, enqueue_metrics, enqueue_slots, alGet_erase_self]
    · simp [hp, alGet_erase_self]
  · intro hkey hmax
    have hnot : ¬ (alGet (d.entry.chatId, d.entry.messageId) s.entries).isSome = false := by
      rw [hkey]
      simp
    have hmax' : ¬ s.maxRetryAttempts < d.entry.attempt + 1 := not_lt.mpr hmax
    unfold applyDeleteResult
    simp only [List.foldl_cons, List.foldl_nil]
    unfold applyRetryStep
    rw [if_neg hnot, if_neg hmax']
    by_cases hp : s.persistenceEnabled
    · simp [hp, enqueue_entries, enqueue_metrics, enqueue_slots]
    · simp [hp]

/-- Claim C4 witness: on the engine holding the pending entry (7, 11) at
attempt 0 with max 5 retries, a retry directive with delay 2 at time 10
reinserts the entry due at 12 with attempt 1, in the index and in the
wheel slot of its new due time. -/
theorem claim4_retry_directive_application_witness :
    alGet (7, 11) (applyDeleteResult c1E1 ⟨[], [], [⟨entry1, 2⟩]⟩ 10 0).entries =
        some ⟨7, 11, 10 + 2, 0 + 1⟩
    ∧ alGet (7, 11) ((applyDeleteResult c1E1 ⟨[], [], [⟨entry1, 2⟩]⟩ 10 0).slots
        (slotForDue c1E1 (10 + 2))) = some ⟨7, 11, 10 + 2, 0 + 1⟩ := by
  have h := (claim4_retry_directive_application c1E1 ⟨entry1, 2⟩ 10 0).2.2
    (by simp [c1E1, c1Engine, entry1]) (by norm_num [c1E1, c1Engine, entry1])
  exact ⟨h.1, h.2⟩

/-! ### Claim C2 -/

/-- The per-key uniqueness invariant of the engine: positive wheel size,
current slot in range, nothing stored beyond the wheel, no duplicate keys
inside a slot, every key in at most one slot, and every slot binding
present in the pending index with the same entry. -/
structure EngineInv (s : EngineState) : Prop where
  bpos : 0 < s.bucketCount
  curLt : s.currentSlot < s.bucketCount
  tailEmpty : ∀ j, s.bucketCount ≤ j → s.slots j = []
  slotNodup : ∀ j, ((s.slots j).map Prod.fst).Nodup
  slotUniq : ∀ i j k, (alGet k (s.slots i)).isSome = true →
    (alGet k (s.slots j)).isSome = true → i = j
  slotInIndex : ∀ i k e, alGet k (s.slots i) = some e → alGet k s.entries = some e

theorem slotForDue_lt (s : EngineState) (h : 0 < s.bucketCount) (dueAt : ℚ) :
    slotForDue s dueAt < s.bucketCount := by
  unfold slotForDue
  have hB : (0 : ℤ) < (s.bucketCount : ℤ) := by exact_mod_cast h
  have h1 := Int.emod_nonneg (pyInt (dueAt / s.tickIntervalSeconds))
    (by omega : (s.bucketCount : ℤ) ≠ 0)
  have h2 := Int.emod_lt_of_pos (pyInt (dueAt / s.tickIntervalSeconds)) hB
  omega

theorem alGet_of_mem_nodup (k : DeleteKey) (e : ScheduledDeleteEntry)
    (l : List (DeleteKey × ScheduledDeleteEntry)) (hnodup : (l.map Prod.fst).Nodup)
    (hmem : (k, e) ∈ l) : alGet k l = some e := by
  induction l with
  | nil => cases hmem
  | cons p rest ih =>
      rcases List.mem_cons.mp hmem with hh | hh
      · simp [← hh]
      · have hne : p.1 ≠ k := by
          intro hk
          have : k ∈ rest.map Prod.fst := List.mem_map.mpr ⟨(k, e), hh, rfl⟩
          rw [← hk] at this
          exact (List.nodup_cons.mp hnodup).1 this
        simp [hne]
        exact ih (List.nodup_cons.mp hnodup).2 hh

theorem enqueue_bucketCount (s : EngineState) (m : PendingDeleteMutation) :
    (enqueuePersistenceMutation s m).bucketCount = s.bucketCount := by
  unfold enqueuePersistenceMutation
  by_cases h : s.persistenceQueue.length < 200000 <;> simp [h]

theorem enqueue_currentSlot (s : EngineState) (m : PendingDeleteMutation) :
    (enqueuePersistenceMutation s m).currentSlot = s.currentSlot := by
  unfold enqueuePersistenceMutation
  by_cases h : s.persistenceQueue.length < 200000 <;> simp [h]

theorem enqueue_engineInv (s : EngineState) (m : PendingDeleteMutation)
    (h : EngineInv s) : EngineInv (enqueuePersistenceMutation s m) := by
  constructor
  · rw [enqueue_bucketCount]
    exact h.bpos
  · rw [enqueue_bucketCount, enqueue_currentSlot]
    exact h.curLt
  · intro j hj
    rw [enqueue_slots]
    rw [enqueue_bucketCount] at hj
    exact h.tailEmpty j hj
  · intro j
    rw [enqueue_slots]
    exact h.slotNodup j
  · intro i j k hi hj
    rw [enqueue_slots] at hi hj
    exact h.slotUniq i j k hi hj
  · intro i k e he
    rw [enqueue_slots] at he
    rw [enqueue_entries]
    exact h.slotInIndex i k e he

theorem scheduleEntry_engineInv (s : EngineState) (chatId messageId : ℤ)
    (delaySeconds : ℚ) (attempt : ℕ) (persist restored : Bool)
    (scheduleKind : Option String) (now nowUtc : ℚ) (hinv : EngineInv s) :
    EngineInv (scheduleEntry s chatId messageId delaySeconds attempt persist restored
      scheduleKind now nowUtc).2 := by
  unfold scheduleEntry
  by_cases hpend : (alGet (chatId, messageId) s.entries).isSome = true
  · rw [if_pos hpend]
    exact ⟨hinv.bpos, hinv.curLt, hinv.tailEmpty, hinv.slotNodup, hinv.slotUniq,
      hinv.slotInIndex⟩
  · rw [if_neg hpend]
    have hfree : alGet (chatId, messageId) s.entries = none := by
      cases h : alGet (chatId, messageId) s.entries
      · rfl
      · rw [h] at hpend
        simp at hpend
    have hkeyslots : ∀ i, alGet (chatId, messageId) (s.slots i) = none := by
      intro i
      cases h : alGet (chatId, messageId) (s.slots i)
      · rfl
      · have := hinv.slotInIndex i _ _ h
        rw [hfree] at this
        cases this
    set key : DeleteKey := (chatId, messageId) with hkey
    set entry : ScheduledDeleteEntry := ⟨chatId, messageId, now + delaySeconds, attempt⟩
      with hentry
    set slotIndex := slotForDue s (now + delaySeconds) with hslotIndex
    have hslotLt : slotIndex < s.bucketCount := slotForDue_lt s hinv.bpos _
    have hcore : EngineInv
        { s with
          slots := fun j => if j = slotIndex then alInsert key entry (s.slots j) else s.slots j
          entries := alInsert key entry s.entries
          metrics :=
            { s.metrics with
              scheduledCount := s.metrics.scheduledCount + 1
              botContentScheduled :=
                if scheduleKind = some "bot_content" then s.metrics.botContentScheduled + 1
                else s.metrics.botContentScheduled
              stickerScheduled :=
                if scheduleKind = some "bot_content" then s.metrics.stickerScheduled
                else if scheduleKind = some "sticker" then s.metrics.stickerScheduled + 1
                else s.metrics.stickerScheduled
              restoredCount :=
                if restored then s.metrics.restoredCount + 1
                else s.metrics.restoredCount } } := by
      constructor
      · exact hinv.bpos
      · exact hinv.curLt
      · intro j hj
        have hj' : s.bucketCount ≤ j := hj
        simp only
        have hne : j ≠ slotIndex := by omega
        rw [if_neg hne]
        exact hinv.tailEmpty j hj'
      · intro j
        simp only
        by_cases hj : j = slotIndex
        · rw [if_pos hj]
          exact keys_nodup_insert _ _ _ (hinv.slotNodup j)
        · rw [if_neg hj]
          exact hinv.slotNodup j
      · intro i j k hi hj
        simp only at hi hj
        by_cases hk : key = k
        · subst hk
          by_cases hi2 : i = slotIndex
          · by_cases hj2 : j = slotIndex
            · rw [hi2, hj2]
            · rw [if_neg hj2, hkeyslots j] at hj
              cases hj
          · rw [if_neg hi2, hkeyslots i] at hi
            cases hi
        · have hi' : (alGet k (s.slots i)).isSome = true := by
            by_cases hi2 : i = slotIndex
            · rw [if_pos hi2, alGet_insert_ne _ _ _ _ hk] at hi
              exact hi
            · rw [if_neg hi2] at hi
              exact hi
          have hj' : (alGet k (s.slots j)).isSome = true := by
            by_cases hj2 : j = slotIndex
            · rw [if_pos hj2, alGet_insert_ne _ _ _ _ hk] at hj
              exact hj
            · rw [if_neg hj2] at hj
              exact hj
          exact hinv.slotUniq i j k hi' hj'
      · intro i k e he
        simp only at he ⊢
        by_cases hk : key = k
        · subst hk
          by_cases hi2 : i = slotIndex
          · rw [if_pos hi2, alGet_insert_self] at he
            rw [alGet_insert_self]
            exact he
          · rw [if_neg hi2, hkeyslots i] at he
            cases he
        · have he' : alGet k (s.slots i) = some e := by
            by_cases hi2 : i = slotIndex
            · rw [if_pos hi2, alGet_insert_ne _ _ _ _ hk] at he
              exact he
            · rw [if_neg hi2] at he
              exact he
          rw [alGet_insert_ne _ _ _ _ hk]
          exact hinv.slotInIndex i k e he'
    by_cases hq : s.persistenceEnabled && persist
    · simp only [hq, if_true]
      exact enqueue_engineInv _ _ hcore
    · simp only [hq, Bool.false_eq_true, if_false]
      exact hcore

/-- The collect loop keeps the slot structure well-formed: starting from
slots free of the pending pairs it reinserts, with unique keys everywhere,
the final slots again have unique keys per slot and at most one slot per
key, agree with the (unchanged) pending index, and stay inside the
wheel. -/
theorem collectLoop_engineInv (s : EngineState) (cutoff : ℚ) :
    ∀ (l : List (DeleteKey × ScheduledDeleteEntry))
      (slots : ℕ → List (DeleteKey × ScheduledDeleteEntry)),
    (l.map Prod.fst).Nodup →
    (∀ p ∈ l, ∀ j, alGet p.1 (slots j) = none) →
    (∀ p ∈ l, alGet p.1 s.entries = some p.2) →
    (∀ j, ((slots j).map Prod.fst).Nodup) →
    (∀ i j k, (alGet k (slots i)).isSome = true → (alGet k (slots j)).isSome = true → i = j) →
    (∀ i k e, alGet k (slots i) = some e → alGet k s.entries = some e) →
    (∀ j, s.bucketCount ≤ j → slots j = []) →
    0 < s.bucketCount →
    (∀ j, (((collectLoop s cutoff l slots).2 j).map Prod.fst).Nodup)
    ∧ (∀ i j k, (alGet k ((collectLoop s cutoff l slots).2 i)).isSome = true →
        (alGet k ((collectLoop s cutoff l slots).2 j)).isSome = true → i = j)
    ∧ (∀ i k e, alGet k ((collectLoop s cutoff l slots).2 i) = some e →
        alGet k s.entries = some e)
    ∧ (∀ j, s.bucketCount ≤ j → (collectLoop s cutoff l slots).2 j = []) := by
  intro l
  induction l with
  | nil =>
      intro slots _ _ _ h4 h5 h6 h7 _
      exact ⟨h4, h5, h6, h7⟩
  | cons p rest ih =>
      intro slots h1 h2 h3 h4 h5 h6 h7 h8
      rcases p with ⟨k0, e0⟩
      have h1' : (rest.map Prod.fst).Nodup := (List.nodup_cons.mp h1).2
      have hk0 : k0 ∉ rest.map Prod.fst := by
        simpa using (List.nodup_cons.mp h1).1
      by_cases hdue : e0.dueAt ≤ cutoff
      · rw [collectLoop, if_pos hdue]
        have hfst : (collectLoop s cutoff rest slots).2 =
            (collectLoop s cutoff rest slots).2 := rfl
        exact ih slots h1'
          (fun p hp j => h2 p (List.mem_cons_of_mem _ hp) j)
          (fun p hp => h3 p (List.mem_cons_of_mem _ hp)) h4 h5 h6 h7 h8
      · rw [collectLoop, if_neg hdue]
        set target := slotForDue s e0.dueAt with htarget
        have htargetLt : target < s.bucketCount := slotForDue_lt s h8 _
        refine ih _ h1' ?_ (fun p hp => h3 p (List.mem_cons_of_mem _ hp)) ?_ ?_ ?_ ?_ h8
        · intro p hp j
          have hpk : p.1 ≠ k0 := by
            intro he
            exact hk0 (he ▸ List.mem_map.mpr ⟨p, hp, rfl⟩)
          by_cases hj : j = target
          · rw [if_pos hj, alGet_insert_ne _ _ _ _ (Ne.symm hpk)]
            exact h2 p (List.mem_cons_of_mem _ hp) j
          · rw [if_neg hj]
            exact h2 p (List.mem_cons_of_mem _ hp) j
        · intro j
          by_cases hj : j = target
          · rw [if_pos hj]
            exact keys_nodup_insert _ _ _ (h4 j)
          · rw [if_neg hj]
            exact h4 j
        · intro i j k hi hj
          by_cases hk : k0 = k
          · subst hk
            have hcase : ∀ m, (alGet k0 (if m = target then alInsert k0 e0 (slots m)
                else slots m)).isSome = true → m = target := by
              intro m hm
              by_cases hm2 : m = target
              · exact hm2
              · rw [if_neg hm2] at hm
                rw [h2 (k0, e0) (List.mem_cons_self _ _) m] at hm
                cases hm
            rw [hcase i hi, hcase j hj]
          · have hi' : (alGet k (slots i)).isSome = true := by
              by_cases hi2 : i = target
              · rw [if_pos hi2, alGet_insert_ne _ _ _ _ hk] at hi
                exact hi
              · rw [if_neg hi2] at hi
                exact hi
            have hj' : (alGet k (slots j)).isSome = true := by
              by_cases hj2 : j = target
              · rw [if_pos hj2, alGet_insert_ne _ _ _ _ hk] at hj
                exact hj
              · rw [if_neg hj2] at hj
                exact hj
            exact h5 i j k hi' hj'
        · intro i k e he
          by_cases hk : k0 = k
          · subst hk
            by_cases hi2 : i = target
            · rw [if_pos hi2, alGet_insert_self] at he
              cases he
              exact h3 (k0, e0) (List.mem_cons_self _ _)
            · rw [if_neg hi2, h2 (k0, e0) (List.mem_cons_self _ _) i] at he
              cases he
          · have he' : alGet k (slots i) = some e := by
              by_cases hi2 : i = target
              · rw [if_pos hi2, alGet_insert_ne _ _ _ _ hk] at he
                exact he
              · rw [if_neg hi2] at he
                exact he
            exact h6 i k e he'
        · intro j hj
          have hne : j ≠ target := by omega
          rw [if_neg hne]
          exact h7 j hj

theorem collectDue_engineInv (s : EngineState) (now : ℚ) (hinv : EngineInv s) :
    EngineInv (collectDueEntries s now).2 := by
  unfold collectDueEntries
  set l := s.slots s.currentSlot with hl
  set slots0 : ℕ → List (DeleteKey × ScheduledDeleteEntry) :=
    fun j => if j = s.currentSlot then [] else s.slots j with hslots0
  have hnone : ∀ p ∈ l, ∀ j, alGet p.1 (slots0 j) = none := by
    intro p hp j
    by_cases hj : j = s.currentSlot
    · simp [hslots0, hj]
    · simp only [hslots0, if_neg hj]
      cases h : alGet p.1 (s.slots j)
      · rfl
      · have hcur : (alGet p.1 (s.slots s.currentSlot)).isSome = true := by
          have hps : p = (p.1, p.2) := rfl
          rw [hps] at hp
          exact alGet_isSome_of_mem _ _ _ hp
        have : j = s.currentSlot := hinv.slotUniq j s.currentSlot p.1 (by rw [h]; rfl) hcur
        exact absurd this hj
  have hagree : ∀ p ∈ l, alGet p.1 s.entries = some p.2 := by
    intro p hp
    have hps : p = (p.1, p.2) := rfl
    rw [hps] at hp
    exact hinv.slotInIndex s.currentSlot p.1 p.2
      (alGet_of_mem_nodup _ _ _ (hinv.slotNodup s.currentSlot) hp)
  have h4 : ∀ j, ((slots0 j).map Prod.fst).Nodup := by
    intro j
    by_cases hj : j = s.currentSlot
    · simp [hslots0, hj]
    · simp only [hslots0, if_neg hj]
      exact hinv.slotNodup j
  have h5 : ∀ i j k, (alGet k (slots0 i)).isSome = true →
      (alGet k (slots0 j)).isSome = true → i = j := by
    intro i j k hi hj
    by_cases hi2 : i = s.currentSlot
    · simp [hslots0, hi2] at hi
    · by_cases hj2 : j = s.currentSlot
      · simp [hslots0, hj2] at hj
      · simp only [hslots0, if_neg hi2] at hi
        simp only [hslots0, if_neg hj2] at hj
        exact hinv.slotUniq i j k hi hj
  have h6 : ∀ i k e, alGet k (slots0 i) = some e → alGet k s.entries = some e := by
    intro i k e he
    by_cases hi2 : i = s.currentSlot
    · simp [hslots0, hi2] at he
    · simp only [hslots0, if_neg hi2] at he
      exact hinv.slotInIndex i k e he
  have h7 : ∀ j, s.bucketCount ≤ j → slots0 j = [] := by
    intro j hj
    have hne : j ≠ s.currentSlot := by
      have := hinv.curLt
      omega
    simp only [hslots0, if_neg hne]
    exact hinv.tailEmpty j hj
  have hmain := collectLoop_engineInv s (now + s.tickIntervalSeconds / 2) l slots0
    (hinv.slotNodup s.currentSlot) hnone hagree h4 h5 h6 h7 hinv.bpos
  exact ⟨hinv.bpos, Nat.mod_lt _ hinv.bpos, hmain.2.2.2, hmain.1, hmain.2.1, hmain.2.2.1⟩

/-- A key collected as due leaves the wheel entirely: after the tick, no
slot contains it. -/
theorem collectDue_clears_due_key (s : EngineState) (now : ℚ) (k : DeleteKey)
    (e : ScheduledDeleteEntry) (hinv : EngineInv s)
    (hmem : (k, e) ∈ s.slots s.currentSlot)
    (hdue : e.dueAt ≤ now + s.tickIntervalSeconds / 2) :
    ∀ j, alGet k ((collectDueEntries s now).2.slots j) = none := by
  intro j
  unfold collectDueEntries
  simp only
  refine collectLoop_slots_none s (now + s.tickIntervalSeconds / 2) k _ _ ?_ ?_ j
  · intro j'
    by_cases hj : j' = s.currentSlot
    · simp [hj]
    · rw [if_neg hj]
      cases h : alGet k (s.slots j')
      · rfl
      · have hcur : (alGet k (s.slots s.currentSlot)).isSome = true :=
          alGet_isSome_of_mem _ _ _ hmem
        have : j' = s.currentSlot := hinv.slotUniq j' s.currentSlot k (by rw [h]; rfl) hcur
        exact absurd this hj
  · intro e' he'
    have h1 := alGet_of_mem_nodup _ _ _ (hinv.slotNodup s.currentSlot) hmem
    have h2 := alGet_of_mem_nodup _ _ _ (hinv.slotNodup s.currentSlot) he'
    rw [h1] at h2
    cases h2
    exact hdue

/-- Erasing a key that sits in no wheel slot preserves the invariant,
whatever happens to the metrics. -/
theorem erase_engineInv (s : EngineState) (key : DeleteKey) (metrics' : AutoDeleteMetrics)
    (hinv : EngineInv s) (hclear : ∀ j, alGet key (s.slots j) = none) :
    EngineInv { s with entries := alErase key s.entries, metrics := metrics' } := by
  refine ⟨hinv.bpos, hinv.curLt, hinv.tailEmpty, hinv.slotNodup, hinv.slotUniq, ?_⟩
  intro i k e he
  have hk : key ≠ k := by
    intro hkk
    rw [← hkk, hclear i] at he
    cases he
  rw [alGet_erase_ne _ _ _ hk]
  exact hinv.slotInIndex i k e he

/-- Reinserting an entry under a key that sits in no wheel slot preserves
the invariant (the shape of the retry branch of `_apply_delete_result`). -/
theorem insert_engineInv (s : EngineState) (key : DeleteKey) (entry : ScheduledDeleteEntry)
    (dueAt : ℚ) (hinv : EngineInv s) (hclear : ∀ j, alGet key (s.slots j) = none) :
    EngineInv { s with
      entries := alInsert key entry s.entries
      slots := fun j => if j = slotForDue s dueAt then alInsert key entry (s.slots j)
        else s.slots j } := by
  have hslotLt : slotForDue s dueAt < s.bucketCount := slotForDue_lt s hinv.bpos _
  constructor
  · exact hinv.bpos
  · exact hinv.curLt
  · intro j hj
    have hj' : s.bucketCount ≤ j := hj
    simp only
    have hne : j ≠ slotForDue s dueAt := by omega
    rw [if_neg hne]
    exact hinv.tailEmpty j hj'
  · intro j
    simp only
    by_cases hj : j = slotForDue s dueAt
    · rw [if_pos hj]
      exact keys_nodup_insert _ _ _ (hinv.slotNodup j)
    · rw [if_neg hj]
      exact hinv.slotNodup j
  · intro i j k hi hj
    simp only at hi hj
    by_cases hk : key = k
    · subst hk
      have hcase : ∀ m, (alGet key (if m = slotForDue s dueAt
          then alInsert key entry (s.slots m) else s.slots m)).isSome = true →
          m = slotForDue s dueAt := by
        intro m hm
        by_cases hm2 : m = slotForDue s dueAt
        · exact hm2
        · rw [if_neg hm2, hclear m] at hm
          cases hm
      rw [hcase i hi, hcase j hj]
    · have hi' : (alGet k (s.slots i)).isSome = true := by
        by_cases hi2 : i = slotForDue s dueAt
        · rw [if_pos hi2, alGet_insert_ne _ _ _ _ hk] at hi
          exact hi
        · rw [if_neg hi2] at hi
          exact hi
      have hj' : (alGet k (s.slots j)).isSome = true := by
        by_cases hj2 : j = slotForDue s dueAt
        · rw [if_pos hj2, alGet_insert_ne _ _ _ _ hk] at hj
          exact hj
        · rw [if_neg hj2] at hj
          exact hj
      exact hinv.slotUniq i j k hi' hj'
  · intro i k e he
    simp only at he ⊢
    by_cases hk : key = k
    · subst hk
      by_cases hi2 : i = slotForDue s dueAt
      · rw [if_pos hi2, alGet_insert_self] at he
        rw [alGet_insert_self]
        exact he
      · rw [if_neg hi2, hclear i] at he
        cases he
    · have he' : alGet k (s.slots i) = some e := by
        by_cases hi2 : i = slotForDue s dueAt
        · rw [if_pos hi2, alGet_insert_ne _ _ _ _ hk] at he
          exact he
        · rw [if_neg hi2] at he
          exact he
      rw [alGet_insert_ne _ _ _ _ hk]
      exact hinv.slotInIndex i k e he'

theorem applyDeletedFold_engineInv (now : ℚ) :
    ∀ (l : List ScheduledDeleteEntry) (acc : ApplyAccum),
    EngineInv acc.state →
    (∀ e ∈ l, ∀ j, alGet (e.chatId, e.messageId) (acc.state.slots j) = none) →
    EngineInv (l.foldl (applyDeletedStep now) acc).state
    ∧ (l.foldl (applyDeletedStep now) acc).state.slots = acc.state.slots := by
  intro l
  induction l with
  | nil =>
      intro acc h1 _
      exact ⟨h1, rfl⟩
  | cons e rest ih =>
      intro acc h1 h2
      rw [List.foldl_cons]
      have hstep : EngineInv (applyDeletedStep now acc e).state :=
        erase_engineInv acc.state (e.chatId, e.messageId) _ h1
          (h2 e (List.mem_cons_self _ _))
      have hslots : (applyDeletedStep now acc e).state.slots = acc.state.slots := rfl
      have hrest : ∀ e' ∈ rest, ∀ j,
          alGet (e'.chatId, e'.messageId) ((applyDeletedStep now acc e).state.slots j) =
            none := by
        intro e' he' j
        rw [hslots]
        exact h2 e' (List.mem_cons_of_mem _ he') j
      rcases ih (applyDeletedStep now acc e) hstep hrest with ⟨ha, hb⟩
      exact ⟨ha, hb.trans hslots⟩

theorem applyFailedFold_engineInv :
    ∀ (l : List ScheduledDeleteEntry) (acc : ApplyAccum),
    EngineInv acc.state →
    (∀ e ∈ l, ∀ j, alGet (e.chatId, e.messageId) (acc.state.slots j) = none) →
    EngineInv (l.foldl applyFailedStep acc).state
    ∧ (l.foldl applyFailedStep acc).state.slots = acc.state.slots := by
  intro l
  induction l with
  | nil =>
      intro acc h1 _
      exact ⟨h1, rfl⟩
  | cons e rest ih =>
      intro acc h1 h2
      rw [List.foldl_cons]
      have hstep : EngineInv (applyFailedStep acc e).state :=
        erase_engineInv acc.state (e.chatId, e.messageId) _ h1
          (h2 e (List.mem_cons_self _ _))
      have hslots : (applyFailedStep acc e).state.slots = acc.state.slots := rfl
      have hrest : ∀ e' ∈ rest, ∀ j,
          alGet (e'.chatId, e'.messageId) ((applyFailedStep acc e).state.slots j) = none := by
        intro e' he' j
        rw [hslots]
        exact h2 e' (List.mem_cons_of_mem _ he') j
      rcases ih (applyFailedStep acc e) hstep hrest with ⟨ha, hb⟩
      exact ⟨ha, hb.trans hslots⟩

theorem applyRetryFold_engineInv (maxRetryAttempts : ℕ) (now nowUtc : ℚ) :
    ∀ (l : List RetryDeleteEntry) (acc : ApplyAccum),
    EngineInv acc.state →
    (∀ d ∈ l, ∀ j, alGet (d.entry.chatId, d.entry.messageId) (acc.state.slots j) = none) →
    ((l.map (fun d => ((d.entry.chatId, d.entry.messageId) : DeleteKey))).Nodup) →
    EngineInv (l.foldl (applyRetryStep maxRetryAttempts now nowUtc) acc).state := by
  intro l
  induction l with
  | nil =>
      intro acc h1 _ _
      exact h1
  | cons d rest ih =>
      intro acc h1 h2 h3
      rw [List.foldl_cons]
      have hkey : ∀ j, alGet (d.entry.chatId, d.entry.messageId) (acc.state.slots j) = none :=
        h2 d (List.mem_cons_self _ _)
      have hkrest : ∀ d' ∈ rest,
          ((d'.entry.chatId, d'.entry.messageId) : DeleteKey) ≠
            (d.entry.chatId, d.entry.messageId) := by
        intro d' hd' he
        have : ((d.entry.chatId, d.entry.messageId) : DeleteKey) ∈
            rest.map (fun x => ((x.entry.chatId, x.entry.messageId) : DeleteKey)) := by
          rw [← he]
          exact List.mem_map.mpr ⟨d', hd', rfl⟩
        exact (List.nodup_cons.mp h3).1 this
      have h3' := (List.nodup_cons.mp h3).2
      unfold applyRetryStep
      by_cases hpend : (alGet (d.entry.chatId, d.entry.messageId)
          acc.state.entries).isSome = false
      · rw [if_pos hpend]
        exact ih acc h1 (fun d' hd' => h2 d' (List.mem_cons_of_mem _ hd')) h3'
      · rw [if_neg hpend]
        by_cases hmax : maxRetryAttempts < d.entry.attempt + 1
        · rw [if_pos hmax]
          refine ih _ (erase_engineInv acc.state _ _ h1 hkey) ?_ h3'
          intro d' hd' j
          exact h2 d' (List.mem_cons_of_mem _ hd') j
        · rw [if_neg hmax]
          refine ih _ (insert_engineInv acc.state _ _ _ h1 hkey) ?_ h3'
          intro d' hd' j
          simp only
          by_cases hj : j = slotForDue acc.state (now + d.delaySeconds)
          · rw [if_pos hj, alGet_insert_ne _ _ _ _ (Ne.symm (hkrest d' hd'))]
            exact h2 d' (List.mem_cons_of_mem _ hd') j
          · rw [if_neg hj]
            exact h2 d' (List.mem_cons_of_mem _ hd') j

theorem foldl_enqueue_engineInv {β : Type} (mk : β → PendingDeleteMutation) :
    ∀ (l : List β) (s : EngineState), EngineInv s →
    EngineInv (l.foldl (fun st x => enqueuePersistenceMutation st (mk x)) s) := by
  intro l
  induction l with
  | nil =>
      intro s h
      exact h
  | cons x rest ih =>
      intro s h
      rw [List.foldl_cons]
      exact ih _ (enqueue_engineInv s (mk x) h)

theorem applyDeleteResult_engineInv (s : EngineState) (result : DeleteExecutionResult)
    (now nowUtc : ℚ) (hinv : EngineInv s)
    (hclear : ∀ e ∈ resultEntries result, ∀ j,
      alGet (e.chatId, e.messageId) (s.slots j) = none)
    (hnodup : ((resultEntries result).map
      (fun e => ((e.chatId, e.messageId) : DeleteKey))).Nodup) :
    EngineInv (applyDeleteResult s result now nowUtc) := by
  have hdel : ∀ e ∈ result.deleted, ∀ j, alGet (e.chatId, e.messageId) (s.slots j) = none :=
    fun e he => hclear e (by simp [resultEntries, he])
  have hfail : ∀ e ∈ result.failed, ∀ j, alGet (e.chatId, e.messageId) (s.slots j) = none :=
    fun e he => hclear e (by simp [resultEntries, he])
  have hret : ∀ d ∈ result.retry, ∀ j,
      alGet (d.entry.chatId, d.entry.messageId) (s.slots j) = none := by
    intro d hd
    exact hclear d.entry (by simp [resultEntries]; exact Or.inr (Or.inr ⟨d, hd, rfl⟩))
  have hretNodup : ((result.retry.map
      (fun d => ((d.entry.chatId, d.entry.messageId) : DeleteKey))).Nodup) := by
    have : (resultEntries result).map (fun e => ((e.chatId, e.messageId) : DeleteKey)) =
        result.deleted.map (fun e => ((e.chatId, e.messageId) : DeleteKey)) ++
        result.failed.map (fun e => ((e.chatId, e.messageId) : DeleteKey)) ++
        result.retry.map (fun d => ((d.entry.chatId, d.entry.messageId) : DeleteKey)) := by
      simp [resultEntries, List.map_append, List.map_map, Function.comp]
    rw [this] at hnodup
    exact (List.nodup_append.mp hnodup).2.1
  unfold applyDeleteResult
  rcases applyDeletedFold_engineInv now result.deleted ⟨s, [], []⟩ hinv hdel with ⟨h1, hs1⟩
  rcases applyFailedFold_engineInv result.failed _ h1 (by
    intro e he j
    rw [hs1]
    exact hfail e he j) with ⟨h2, hs2⟩
  have h3 := applyRetryFold_engineInv s.maxRetryAttempts now nowUtc result.retry _ h2 (by
    intro d hd j
    rw [hs2, hs1]
    exact hret d hd j) hretNodup
  by_cases hp : (result.retry.foldl (applyRetryStep s.maxRetryAttempts now nowUtc)
      (result.failed.foldl applyFailedStep
        (result.deleted.foldl (applyDeletedStep now)
          ⟨s, [], []⟩))).state.persistenceEnabled
  · rw [if_pos hp]
    exact foldl_enqueue_engineInv _ _ _ (foldl_enqueue_engineInv _ _ _ h3)
  · rw [if_neg hp]
    exact h3

theorem restoreFold_engineInv (now nowUtc : ℚ) :
    ∀ (docs : List RestoredDocument) (s : EngineState), EngineInv s →
    EngineInv (docs.foldl (fun st doc => restoreDocument st doc now nowUtc) s) := by
  intro docs
  induction docs with
  | nil =>
      intro s h
      exact h
  | cons doc rest ih =>
      intro s h
      rw [List.foldl_cons]
      refine ih _ ?_
      unfold restoreDocument
      cases hc : doc.chatId with
      | none => exact h
      | some c =>
          cases hm : doc.messageId with
          | none => exact h
          | some m => exact scheduleEntry_engineInv s c m _ _ false true none now nowUtc h

theorem restore_engineInv (s : EngineState) (docs : List RestoredDocument)
    (now nowUtc : ℚ) (hinv : EngineInv s) :
    EngineInv (restorePendingDeletes s docs now nowUtc) := by
  unfold restorePendingDeletes
  by_cases h : s.restoreLimit ≤ 0
  · rw [if_pos h]
    exact hinv
  · rw [if_neg h]
    exact restoreFold_engineInv now nowUtc _ s hinv

/-- Claim C2: at most one live entry exists per (chat, message) key.
Scheduling a key that is already pending returns false, increments only
the duplicate counter and leaves everything else (including the existing
entry) unchanged; the per-key uniqueness invariant `EngineInv` — each key
in at most one wheel slot, no duplicate keys within a slot, and every
slot binding mirrored in the pending index — is preserved by scheduling,
by tick collection (which moreover removes a collected due key from every
slot), by result application (whose directives, produced from collected
entries, concern keys no longer in any slot, pairwise distinct), and by
restore. -/
theorem claim2_per_key_uniqueness (s : EngineState) (hinv : EngineInv s) :
    (∀ (chatId messageId : ℤ) (delaySeconds : ℚ) (attempt : ℕ) (persist restored : Bool)
        (scheduleKind : Option String) (now nowUtc : ℚ) (e0 : ScheduledDeleteEntry),
        alGet (chatId, messageId) s.entries = some e0 →
        scheduleEntry s chatId messageId delaySeconds attempt persist restored scheduleKind
            now nowUtc =
          (false, { s with metrics :=
            { s.metrics with duplicateCount := s.metrics.duplicateCount + 1 } }))
    ∧ (∀ (chatId messageId : ℤ) (delaySeconds : ℚ) (attempt : ℕ) (persist restored : Bool)
        (scheduleKind : Option String) (now nowUtc : ℚ),
        EngineInv (scheduleEntry s chatId messageId delaySeconds attempt persist restored
          scheduleKind now nowUtc).2)
    ∧ (∀ now : ℚ, EngineInv (collectDueEntries s now).2)
    ∧ (∀ (now : ℚ) (k : DeleteKey) (e : ScheduledDeleteEntry),
        (k, e) ∈ s.slots s.currentSlot → e.dueAt ≤ now + s.tickIntervalSeconds / 2 →
        ∀ j, alGet k ((collectDueEntries s now).2.slots j) = none)
    ∧ (∀ (result : DeleteExecutionResult) (now nowUtc : ℚ),
        (∀ e ∈ resultEntries result, ∀ j,
          alGet (e.chatId, e.messageId) (s.slots j) = none) →
        ((resultEntries result).map (fun e => ((e.chatId, e.messageId) : DeleteKey))).Nodup →
        EngineInv (applyDeleteResult s result now nowUtc))
    ∧ (∀ (docs : List RestoredDocument) (now nowUtc : ℚ),
        EngineInv (restorePendingDeletes s docs now nowUtc)) := by
  refine ⟨?_, ?_, ?_, ?_, ?_, ?_⟩
  · intro chatId messageId delaySeconds attempt persist restored scheduleKind now nowUtc e0 h
    unfold scheduleEntry
    rw [if_pos (by rw [h]; rfl)]
  · intro chatId messageId delaySeconds attempt persist restored scheduleKind now nowUtc
    exact scheduleEntry_engineInv s chatId messageId delaySeconds attempt persist restored
      scheduleKind now nowUtc hinv
  · intro now
    exact collectDue_engineInv s now hinv
  · intro now k e hmem hdue
    exact collectDue_clears_due_key s now k e hinv hmem hdue
  · intro result now nowUtc hclear hnodup
    exact applyDeleteResult_engineInv s result now nowUtc hinv hclear hnodup
  · intro docs now nowUtc
    exact restore_engineInv s docs now nowUtc hinv

theorem c1E1_engineInv : EngineInv c1E1 := by
  constructor
  · norm_num [c1E1, c1Engine]
  · norm_num [c1E1, c1Engine]
  · intro j hj
    have hj' : 512 ≤ j := by simpa [c1E1, c1Engine] using hj
    have : j ≠ 2 := by omega
    simp [c1E1, c1Engine, this]
  · intro j
    by_cases hj : j = 2 <;> simp [c1E1, c1Engine, hj]
  · intro i j k hi hj
    by_cases hi2 : i = 2
    · by_cases hj2 : j = 2
      · rw [hi2, hj2]
      · simp [c1E1, c1Engine, hj2] at hj
    · simp [c1E1, c1Engine, hi2] at hi
  · intro i k e he
    by_cases hi2 : i = 2
    · rw [hi2] at he
      by_cases hk : ((7, 11) : DeleteKey) = k
      · rw [← hk] at he ⊢
        simp [c1E1] at he ⊢
        exact he
      · simp [c1E1, hk] at he
    · simp [c1E1, c1Engine, hi2] at he

/-- Claim C2 witness: on the engine holding the single pending entry
(7, 11), a duplicate schedule of (7, 11) returns false and bumps only the
duplicate counter; the uniqueness invariant holds after a fresh schedule,
after a tick collection (which clears the collected key from the wheel),
after applying an empty result, and after a restore. -/
theorem claim2_per_key_uniqueness_witness :
    scheduleEntry c1E1 7 11 2 0 false false none 0 0 =
      (false, { c1E1 with metrics :=
        { c1E1.metrics with duplicateCount := c1E1.metrics.duplicateCount + 1 } })
    ∧ EngineInv (scheduleEntry c1E1 7 12 2 0 false false none 0 0).2
    ∧ EngineInv (collectDueEntries c1E1 0).2
    ∧ (∀ j, alGet (7, 11) ((collectDueEntries { c1E1 with currentSlot := 2 } 5).2.slots j) =
        none)
    ∧ EngineInv (applyDeleteResult c1E1 ⟨[], [], []⟩ 0 0)
    ∧ EngineInv (restorePendingDeletes c1E1 [] 0 0) := by
  have h := claim2_per_key_uniqueness c1E1 c1E1_engineInv
  have h2 := claim2_per_key_uniqueness { c1E1 with currentSlot := 2 } (by
    have hb : EngineInv c1E1 := c1E1_engineInv
    exact ⟨hb.bpos, by norm_num [c1E1, c1Engine], hb.tailEmpty, hb.slotNodup, hb.slotUniq,
      hb.slotInIndex⟩)
  refine ⟨h.1 7 11 2 0 false false none 0 0 entry1 (by simp [c1E1]),
    h.2.1 7 12 2 0 false false none 0 0,
    h.2.2.1 0,
    h2.2.2.2.1 5 (7, 11) entry1 (by simp [c1E1]) (by norm_num [c1E1, c1Engine, entry1]),
    h.2.2.2.2.1 ⟨[], [], []⟩ 0 0 (by simp [resultEntries]) (by simp [resultEntries]),
    h.2.2.2.2.2 [] 0 0⟩

end EliteProtection
